import Mathlib

/-!
# Verification of the mathlive structural math-expression editor core

This file gives a shallow embedding of the editor core of the repository
(`src/editor/editor-mathfield.js`, `src/editor/editor-commands.js`) and proves
properties of it.  Modules of the repository that are referenced by the two
source files but are not part of the source tree (the editable mathlist, the
undo manager, the inline-shortcut tables, the LaTeX lexer/parser and the LaTeX
serializer) are modelled from the specification; each such definition carries a
doc comment starting with `Modelled from the spec:`.
-/

/-! ## Inline shortcuts (`Shortcuts.matchEndOf` and its configuration) -/

/-- The result of a successful inline-shortcut match: the trigger text that was
matched at the end of the typed prefix, and the LaTeX to substitute for it. -/
structure ShortcutMatch where
  matchText : String
  substitute : String
deriving DecidableEq

/-- The configuration surface consumed by the shortcut matcher, from
`MathField.prototype.config` (editor-mathfield.js): `overrideDefaultInlineShortcuts`
defaults to false (absent from the defaults object, hence falsy), and
`inlineShortcuts` maps trigger text to substitute LaTeX. -/
structure MathfieldConfig where
  overrideDefaultInlineShortcuts : Bool
  inlineShortcuts : List (String × String)
deriving DecidableEq

/-- Modelled from the spec: the built-in inline shortcut table lives in
`editor-shortcuts.js`, which is not part of the source tree.  The configuration
documentation in editor-mathfield.js attests that the default shortcuts include
`'p' + 'i' = 'π'`, i.e. the entry `pi → \pi`. -/
def INLINE_SHORTCUTS : List (String × String) := [("pi", "\\pi")]

/-- String suffix test, computed on the underlying character lists. -/
def strEndsWith (key text : String) : Bool := key.data.isSuffixOf text.data

/-- The longest key of `table` that is a suffix of `text`, together with its
substitution (earlier entries win ties). -/
def longestSuffixKey (table : List (String × String)) (text : String) : Option ShortcutMatch :=
  table.foldl
    (fun best entry =>
      if strEndsWith entry.1 text then
        match best with
        | none => some ⟨entry.1, entry.2⟩
        | some b => if b.matchText.length < entry.1.length then some ⟨entry.1, entry.2⟩ else some b
      else best)
    none

/-- Modelled from the spec: `Shortcuts.matchEndOf(text, config)` lives in
`editor-shortcuts.js`, which is not part of the source tree.  Per the spec
(§4.7, §6) it finds the longest registered inline-shortcut key that is a suffix
of `text`, consulting configuration-provided shortcuts before falling back to
the built-in table; when `overrideDefaultInlineShortcuts` is true the built-in
table is skipped entirely. -/
def matchEndOf (text : String) (config : MathfieldConfig) : Option ShortcutMatch :=
  match longestSuffixKey config.inlineShortcuts text with
  | some m => some m
  | none =>
    if config.overrideDefaultInlineShortcuts then none
    else longestSuffixKey INLINE_SHORTCUTS text

/-- C2: When `overrideDefaultInlineShortcuts` is false (the default), matching
tries the caller-supplied `inlineShortcuts` table before the built-in table, so
a user shortcut with the same trigger text takes precedence over a built-in
one; when the flag is true the built-in table is skipped entirely and only user
shortcuts can match. -/
theorem matchEndOf_user_shortcut_precedence (text : String) (config : MathfieldConfig) :
    (∀ m, longestSuffixKey config.inlineShortcuts text = some m →
      matchEndOf text config = some m) ∧
    (config.overrideDefaultInlineShortcuts = true →
      matchEndOf text config = longestSuffixKey config.inlineShortcuts text) ∧
    (config.overrideDefaultInlineShortcuts = false →
      longestSuffixKey config.inlineShortcuts text = none →
      matchEndOf text config = longestSuffixKey INLINE_SHORTCUTS text) := by
  refine ⟨?_, ?_, ?_⟩
  · intro m hm
    simp [matchEndOf, hm]
  · intro hov
    cases hu : longestSuffixKey config.inlineShortcuts text with
    | none => simp [matchEndOf, hu, hov]
    | some m => simp [matchEndOf, hu]
  · intro hov hu
    simp [matchEndOf, hu, hov]

theorem matchEndOf_user_shortcut_precedence_witness :
    matchEndOf "xpi" ⟨false, [("pi", "\\tau")]⟩ = some ⟨"pi", "\\tau"⟩ ∧
    matchEndOf "xpi" ⟨true, []⟩ = none ∧
    matchEndOf "xpi" ⟨false, []⟩ = some ⟨"pi", "\\pi"⟩ := by
  refine ⟨?_, ?_, ?_⟩
  · exact (matchEndOf_user_shortcut_precedence "xpi" ⟨false, [("pi", "\\tau")]⟩).1
      ⟨"pi", "\\tau"⟩ (by decide)
  · exact ((matchEndOf_user_shortcut_precedence "xpi" ⟨true, []⟩).2.1 rfl).trans (by decide)
  · exact (((matchEndOf_user_shortcut_precedence "xpi" ⟨false, []⟩).2.2 rfl) (by decide)).trans
      (by decide)

/-! ## The selection/caret pass of `MathField._render` -/

/-- An atom carrying the transient presentation flags set by the editor before
each layout pass (spec §3: `hasCaret`, `isSelected`, and a stable identity). -/
structure FlagAtom where
  id : Nat
  hasCaret : Bool
  isSelected : Bool
deriving DecidableEq

/-- The per-atom body of `root.forEach` in `MathField._render`: clear
`hasCaret`, recompute `isSelected` from the selection. -/
def clearFlags (containsSel : Nat → Bool) (a : FlagAtom) : FlagAtom :=
  { a with hasCaret := false, isSelected := containsSel a.id }

/-- `this.mathlist.anchor().hasCaret = true`, addressed through the anchor
atom's stable identity. -/
def setAnchorCaret (anchorId : Nat) (a : FlagAtom) : FlagAtom :=
  if a.id = anchorId then { a with hasCaret := true } else a

/-- Step 1 of `MathField.prototype._render` (editor-mathfield.js lines 675-686):
every atom of the tree gets `hasCaret` cleared and `isSelected` recomputed from
the current selection, and then, only when the field has focus and the
selection is collapsed, the selection anchor gets `hasCaret` set.
`root.forEach` (from the mathAtom module, not in the source tree) is modelled
from the spec as a map over the list of all atoms of the tree; `contains` and
`anchor` (from the editable mathlist, not in the source tree) are the
predicate `containsSel` and the identity `anchorId` of the anchor atom. -/
def renderSelectionPass (hasFocus isCollapsed : Bool) (containsSel : Nat → Bool)
    (anchorId : Nat) (atoms : List FlagAtom) : List FlagAtom :=
  let cleared := atoms.map (clearFlags containsSel)
  if hasFocus && isCollapsed then cleared.map (setAnchorCaret anchorId)
  else cleared

theorem clearFlags_id (containsSel : Nat → Bool) (a : FlagAtom) :
    (clearFlags containsSel a).id = a.id := rfl

theorem setAnchorCaret_id (anchorId : Nat) (a : FlagAtom) :
    (setAnchorCaret anchorId a).id = a.id := by
  unfold setAnchorCaret; split <;> rfl

theorem setAnchorCaret_isSelected (anchorId : Nat) (a : FlagAtom) :
    (setAnchorCaret anchorId a).isSelected = a.isSelected := by
  unfold setAnchorCaret; split <;> rfl

theorem setAnchorCaret_clearFlags_hasCaret (containsSel : Nat → Bool) (anchorId : Nat)
    (a : FlagAtom) :
    (setAnchorCaret anchorId (clearFlags containsSel a)).hasCaret = decide (a.id = anchorId) := by
  unfold setAnchorCaret clearFlags
  by_cases h : a.id = anchorId <;> simp [h]

/-- C5: after the selection pass at the start of a render, `isSelected` on each
atom is exactly whether the selection contains it, an atom can carry the caret
only when the field has focus, the selection is collapsed and the atom is the
anchor, and (atom identities being unique) at most one atom has `hasCaret`. -/
theorem renderSelectionPass_flags_wholesale (hasFocus isCollapsed : Bool)
    (containsSel : Nat → Bool) (anchorId : Nat) (atoms : List FlagAtom)
    (hnodup : (atoms.map FlagAtom.id).Nodup) :
    (∀ a ∈ renderSelectionPass hasFocus isCollapsed containsSel anchorId atoms,
      a.isSelected = containsSel a.id ∧
      (a.hasCaret = true → hasFocus = true ∧ isCollapsed = true ∧ a.id = anchorId)) ∧
    (renderSelectionPass hasFocus isCollapsed containsSel anchorId atoms).countP
      (fun a => a.hasCaret) ≤ 1 := by
  constructor
  · intro a ha
    unfold renderSelectionPass at ha
    by_cases hfc : (hasFocus && isCollapsed) = true
    · simp only [hfc, if_pos, List.mem_map] at ha
      obtain ⟨b, hb, hba⟩ := ha
      obtain ⟨c, _, hcb⟩ := hb
      subst hba hcb
      refine ⟨by rw [setAnchorCaret_isSelected, setAnchorCaret_id, clearFlags_id]; rfl, ?_⟩
      intro hc
      rw [setAnchorCaret_clearFlags_hasCaret] at hc
      have hid : c.id = anchorId := of_decide_eq_true hc
      have hf := (Bool.and_eq_true _ _).mp hfc
      rw [setAnchorCaret_id, clearFlags_id]
      exact ⟨hf.1, hf.2, hid⟩
    · simp only [hfc, Bool.false_eq_true, if_false, List.mem_map] at ha
      obtain ⟨c, _, hcb⟩ := ha
      subst hcb
      exact ⟨rfl, by intro hc; simp [clearFlags] at hc⟩
  · unfold renderSelectionPass
    by_cases hfc : (hasFocus && isCollapsed) = true
    · simp only [hfc, if_pos]
      rw [List.countP_map, List.countP_map]
      have heq : atoms.countP
          (((fun (a : FlagAtom) => a.hasCaret) ∘ setAnchorCaret anchorId) ∘ clearFlags containsSel)
          = atoms.countP ((fun i => i == anchorId) ∘ FlagAtom.id) := by
        refine List.countP_congr ?_
        intro a _
        simp only [Function.comp_apply, setAnchorCaret_clearFlags_hasCaret]
        simp [Nat.beq_eq]
      rw [heq, ← List.countP_map]
      have : (atoms.map FlagAtom.id).count anchorId ≤ 1 :=
        List.nodup_iff_count_le_one.mp hnodup anchorId
      simpa [List.count] using this
    · simp only [hfc, Bool.false_eq_true, if_false]
      rw [List.countP_map]
      have : atoms.countP ((fun (a : FlagAtom) => a.hasCaret) ∘ clearFlags containsSel) = 0 := by
        rw [List.countP_eq_zero]
        intro a _
        simp [clearFlags]
      omega

theorem renderSelectionPass_flags_wholesale_witness :
    (renderSelectionPass true true (fun i => decide (i = 1)) 0
      [⟨0, false, true⟩, ⟨1, true, false⟩]).countP (fun a => a.hasCaret) ≤ 1 :=
  (renderSelectionPass_flags_wholesale true true (fun i => decide (i = 1)) 0
    [⟨0, false, true⟩, ⟨1, true, false⟩] (by decide)).2

/-! ## `MathField.perform`: selector dispatch, snapshots, rendering -/

/-- An atom of the expression tree as seen by the editor models below: either a
literal character atom (typed text) or an atom produced by inserting a parsed
LaTeX fragment. -/
inductive TAtom where
  | lit (c : Char)
  | latexFrag (s : String)
deriving DecidableEq

/-- The state a `perform` call can touch: the expression tree owned by the
editable mathlist, the undo snapshots, and a counter of render passes. -/
structure MFPerformState where
  tree : List TAtom
  undoStack : List (List TAtom)
  renderCount : Nat
deriving DecidableEq

/-- Modelled from the spec (§4.6): `UndoManager.snapshot` (editor-undo.js is
not in the source tree) pushes the current tree state onto the undo stack. -/
def snapshotP (st : MFPerformState) : MFPerformState :=
  { st with undoStack := st.undoStack ++ [st.tree] }

/-- Modelled from the spec (§4.6): `UndoManager.undo` (editor-undo.js is not in
the source tree) replaces the live tree with the snapshot at the cursor. -/
def undoP (st : MFPerformState) : MFPerformState :=
  match st.undoStack.getLast? with
  | none => st
  | some t => { st with tree := t, undoStack := st.undoStack.dropLast }

/-- `MathField._render`, modelled at this level as one more render pass over
the unchanged tree. -/
def renderP (st : MFPerformState) : MFPerformState :=
  { st with renderCount := st.renderCount + 1 }

/-- The selectors for which `perform` takes an undo snapshot before dispatching
to the mathlist (editor-mathfield.js lines 526-528). -/
def deleteFamilySelectors : List String :=
  ["delete_", "transpose_", "deleteToMathFieldEnd_", "deleteToGroupEnd_", "deleteToGroupStart_",
   "deletePreviousWord_", "deleteNextWord_", "deletePreviousChar_", "deleteNextChar_"]

/-- Function-table lookup standing for Javascript property lookup
(`typeof this.mathlist[selector] === 'function'`). -/
def lookupFn {α : Type} (table : List (String × α)) (key : String) : Option α :=
  (table.find? (fun e => e.1 == key)).map (fun e => e.2)

/-- Embeds `MathField.prototype.perform` (editor-mathfield.js lines 514-553).
The operation name gets `_` appended; the editable mathlist's functions are
tried first, then the MathField's own; a snapshot precedes the delete-family
selectors (and `complete_` on the field side); a successful dispatch renders
and returns true, and an unknown selector returns false.  The mathlist's
operations mutate only the tree; the field's own operations may touch the whole
state (e.g. `undo_`). -/
def perform (mlOps : List (String × (List String → List TAtom → List TAtom)))
    (fieldOps : List (String × (List String → MFPerformState → MFPerformState)))
    (name : String) (args : List String) (st : MFPerformState) : Bool × MFPerformState :=
  let selector := name ++ "_"
  match lookupFn mlOps selector with
  | some f =>
    let st1 := if deleteFamilySelectors.contains selector then snapshotP st else st
    let st2 := { st1 with tree := f args st1.tree }
    (true, renderP st2)
  | none =>
    match lookupFn fieldOps selector with
    | some g =>
      let st1 := if selector == "complete_" then snapshotP st else st
      (true, renderP (g args st1))
    | none => (false, st)

/-- C3: an operation name that (after the `_` suffix) names a function on
neither the mathlist nor the MathField is a no-op reported to the caller:
`perform` returns false and the state — tree, undo stack, and render count —
is unchanged. -/
theorem perform_unknown_selector_noop
    (mlOps : List (String × (List String → List TAtom → List TAtom)))
    (fieldOps : List (String × (List String → MFPerformState → MFPerformState)))
    (name : String) (args : List String) (st : MFPerformState)
    (hml : lookupFn mlOps (name ++ "_") = none)
    (hfield : lookupFn fieldOps (name ++ "_") = none) :
    perform mlOps fieldOps name args st = (false, st) := by
  simp [perform, hml, hfield]

theorem perform_unknown_selector_noop_witness :
    perform [] [] "foo" [] ⟨[TAtom.lit 'x'], [], 0⟩ = (false, ⟨[TAtom.lit 'x'], [], 0⟩) :=
  perform_unknown_selector_noop [] [] "foo" [] ⟨[TAtom.lit 'x'], [], 0⟩ rfl rfl

/-- C6: for every delete-family selector dispatched through `perform`, an undo
snapshot of the tree is pushed before the mutation runs, so one subsequent undo
restores the tree exactly as it was before the deletion. -/
theorem perform_delete_family_snapshot_undo
    (mlOps : List (String × (List String → List TAtom → List TAtom)))
    (fieldOps : List (String × (List String → MFPerformState → MFPerformState)))
    (name : String) (args : List String) (st : MFPerformState)
    (f : List String → List TAtom → List TAtom)
    (hname : name ∈ ["delete", "transpose", "deleteToMathFieldEnd", "deleteToGroupEnd",
      "deleteToGroupStart", "deletePreviousWord", "deleteNextWord", "deletePreviousChar",
      "deleteNextChar"])
    (hml : lookupFn mlOps (name ++ "_") = some f) :
    (undoP (perform mlOps fieldOps name args st).2).tree = st.tree := by
  have hsel : (name ++ "_") ∈ deleteFamilySelectors := by
    fin_cases hname <;> decide
  simp [perform, hml, hsel, snapshotP, renderP, undoP, List.getLast?_concat]

theorem perform_delete_family_snapshot_undo_witness :
    (undoP (perform [("delete_", fun _ _ => [])] [] "delete" []
      ⟨[TAtom.lit 'x'], [], 0⟩).2).tree = [TAtom.lit 'x'] :=
  perform_delete_family_snapshot_undo [("delete_", fun _ _ => [])] [] "delete" []
    ⟨[TAtom.lit 'x'], [], 0⟩ (fun _ _ => []) (by decide) rfl

/-! ## `MathField._onTypedText`: typed characters, inline shortcuts, command mode -/

/-- The editor state touched by the per-character body of `_onTypedText`:
the parse mode, the atoms before the insertion point, the undo snapshots, the
popover suggestion index, and the command-mode tracking data (spec §4.4). -/
structure MFTypedState where
  parseMode : String
  atoms : List TAtom
  undoStack : List (List TAtom)
  suggestionIndex : Nat
  commandStr : String
  suggestion : Option String
  decorated : Bool
deriving DecidableEq

/-- One observable editor operation issued by `_onTypedText`, in program
order.  `matchAttempt` records a call of `Shortcuts.matchEndOf`, and
`shortcutSubstitution` the application of an inline-shortcut substitution. -/
inductive MFEvent where
  | matchAttempt (text : String)
  | shortcutSubstitution (matchText substitute : String)
  | insertChar (c : Char)
  | snapshotTaken
  | deleteCount (n : Int)
  | suggestionRemoved
  | suggestionInserted (text : String) (shift : Int)
  | decorationSet (flag : Bool)
deriving DecidableEq

/-- Modelled from the spec (§4.4): `mathlist.insert` with a single plain
character appends one literal atom; in command mode the character also extends
the tracked command string. -/
def insertCharOp (st : MFTypedState) (c : Char) : MFTypedState :=
  { st with atoms := st.atoms ++ [TAtom.lit c],
            commandStr := if st.parseMode == "command" then st.commandStr.push c
                          else st.commandStr }

/-- Modelled from the spec (§4.4): `mathlist.insert` with a LaTeX fragment
(e.g. an inline-shortcut substitute) re-enters the parser and appends the
parsed fragment as one inserted item. -/
def insertLatexOp (st : MFTypedState) (s : String) : MFTypedState :=
  { st with atoms := st.atoms ++ [TAtom.latexFrag s] }

/-- Modelled from the spec (§4.4, §6): `mathlist.delete(count)` with a negative
count removes up to `|count|` atoms before the insertion point, clamped at the
start of the field (deleting out of the field does nothing by default, per the
`onDeleteOutOf` documentation in editor-mathfield.js).  Only backward deletion
occurs in `_onTypedText`. -/
def deleteOp (st : MFTypedState) (n : Int) : MFTypedState :=
  if n < 0 then { st with atoms := st.atoms.take (st.atoms.length - n.natAbs) } else st

/-- Modelled from the spec (§4.6): push an undo snapshot of the tree. -/
def snapshotOp (st : MFTypedState) : MFTypedState :=
  { st with undoStack := st.undoStack ++ [st.atoms] }

/-- Modelled from the spec (§4.6): undo replaces the live tree with the most
recent snapshot. -/
def undoOp (st : MFTypedState) : MFTypedState :=
  match st.undoStack.getLast? with
  | none => st
  | some t => { st with atoms := t, undoStack := st.undoStack.dropLast }

/-- Modelled from the spec: `extractGroupStringBeforeInsertionPoint` returns
the literal characters of the trailing run of character atoms before the
insertion point; atoms that came from parsed LaTeX fragments end the run. -/
def extractGroupStringBeforeInsertionPoint (st : MFTypedState) : String :=
  String.mk (((st.atoms.reverse.takeWhile fun a =>
      match a with | TAtom.lit _ => true | _ => false).reverse).filterMap
    fun a => match a with | TAtom.lit c => some c | _ => none)

/-- The test `/^\\[a-zA-Z\\*]+$/` of editor-mathfield.js line 626: a backslash
followed by one or more letters, backslashes or stars. -/
def looksLikeCommandName (s : String) : Bool :=
  match s.data with
  | [] => false
  | c :: rest =>
    c == '\\' && !rest.isEmpty && rest.all fun d => d.isAlpha || d == '\\' || d == '*'

/-- Embeds the per-character body of `MathField.prototype._onTypedText`
(editor-mathfield.js lines 608-662): inline shortcuts are only looked up in
`math` parse mode; in `command` mode the character updates the tracked command
string and its suggestion (`Definitions.suggest`, from a module not in the
source tree, is the parameter `defsSuggest`, returning the candidate match
names); when a shortcut matched, the character is inserted, a snapshot is
taken, the matched characters are removed and the substitute is inserted;
otherwise a snapshot is taken and the character is inserted.  The second
component records the operations issued, in program order. -/
def onTypedTextChar (config : MathfieldConfig) (defsSuggest : String → List String)
    (st : MFTypedState) (c : Char) : MFTypedState × List MFEvent :=
  let shortcutAndEv :
      Option ShortcutMatch × List MFEvent :=
    if st.parseMode == "math" then
      let pfx := extractGroupStringBeforeInsertionPoint st
      (matchEndOf (pfx.push c) config, [MFEvent.matchAttempt (pfx.push c)])
    else (none, [])
  let shortcut := shortcutAndEv.1
  let ev0 := shortcutAndEv.2
  if st.parseMode == "command" then
    let st1 := { st with suggestion := none, suggestionIndex := 0 }
    let command := st1.commandStr
    let suggestions := defsSuggest (command.push c)
    if suggestions.isEmpty then
      let st2 := insertCharOp st1 c
      if looksLikeCommandName (command.push c) then
        ({ st2 with decorated := true },
         ev0 ++ [MFEvent.suggestionRemoved, MFEvent.insertChar c, MFEvent.decorationSet true])
      else
        (st2, ev0 ++ [MFEvent.suggestionRemoved, MFEvent.insertChar c])
    else
      let st2 := insertCharOp st1 c
      let first := suggestions.headD ""
      if first != command.push c then
        let shift : Int := -(first.length : Int) + (command.length : Int) + 1
        ({ st2 with suggestion := some first },
         ev0 ++ [MFEvent.suggestionRemoved, MFEvent.insertChar c,
                 MFEvent.suggestionInserted first shift])
      else
        (st2, ev0 ++ [MFEvent.suggestionRemoved, MFEvent.insertChar c])
  else
    match shortcut with
    | some sh =>
      let st1 := insertCharOp st c
      let st2 := snapshotOp st1
      let n : Int := -(sh.matchText.length : Int) - 1
      let st3 := deleteOp st2 n
      let st4 := insertLatexOp st3 sh.substitute
      (st4, ev0 ++ [MFEvent.insertChar c, MFEvent.snapshotTaken, MFEvent.deleteCount n,
                    MFEvent.shortcutSubstitution sh.matchText sh.substitute])
    | none =>
      let st1 := snapshotOp st
      let st2 := insertCharOp st1 c
      (st2, ev0 ++ [MFEvent.snapshotTaken, MFEvent.insertChar c])

/-- `MathField._onTypedText` over a typed string (the non-paste path): the
error decoration is removed on entry, then each character is processed in
turn. -/
def typedText (config : MathfieldConfig) (defsSuggest : String → List String)
    (st : MFTypedState) (text : String) : MFTypedState × List MFEvent :=
  text.data.foldl
    (fun acc c =>
      let r := onTypedTextChar config defsSuggest acc.1 c
      (r.1, acc.2 ++ r.2))
    ({ st with decorated := false }, [])

/-- The default configuration: `overrideDefaultInlineShortcuts` is falsy and
no user shortcuts are provided. -/
def defaultTypedConfig : MathfieldConfig := ⟨false, []⟩

/-- An empty math-mode field. -/
def emptyMathState : MFTypedState :=
  { parseMode := "math", atoms := [], undoStack := [], suggestionIndex := 0,
    commandStr := "", suggestion := none, decorated := false }

/-- C1: typing `p` then `i` in math mode with default shortcuts enabled
triggers the `pi → \pi` substitution: the two literal atoms are replaced by
the single Greek-letter atom, the undo stack holds one extra snapshot taken
after the literal `i` was inserted (capturing literal `pi`), and a single undo
restores the literal text `pi`. -/
theorem typedText_pi_substitution_undo :
    (typedText defaultTypedConfig (fun _ => []) emptyMathState "pi").1.atoms
      = [TAtom.latexFrag "\\pi"] ∧
    (typedText defaultTypedConfig (fun _ => []) emptyMathState "pi").1.undoStack
      = [[], [TAtom.lit 'p', TAtom.lit 'i']] ∧
    (undoOp (typedText defaultTypedConfig (fun _ => []) emptyMathState "pi").1).atoms
      = [TAtom.lit 'p', TAtom.lit 'i'] := by
  decide

/-- Events that belong to the inline-shortcut machinery. -/
def isShortcutEvent : MFEvent → Bool
  | MFEvent.matchAttempt _ => true
  | MFEvent.shortcutSubstitution _ _ => true
  | _ => false

/-- Events a command-mode character may issue: command-string/suggestion
updates, the insertion of the character into the command run, and the error
decoration. -/
def isCommandModeEvent : MFEvent → Bool
  | MFEvent.suggestionRemoved => true
  | MFEvent.insertChar _ => true
  | MFEvent.suggestionInserted _ _ => true
  | MFEvent.decorationSet _ => true
  | _ => false

/-- C9: outside `math` parse mode no inline-shortcut match is computed and no
substitution occurs; in `command` mode a typed character issues only
command-string/suggestion updates (and the insertion of the character into the
command run). -/
theorem onTypedTextChar_no_shortcut_outside_math (config : MathfieldConfig)
    (defsSuggest : String → List String) (st : MFTypedState) (c : Char)
    (h : st.parseMode ≠ "math") :
    ((onTypedTextChar config defsSuggest st c).2.all fun e => !isShortcutEvent e) = true ∧
    (st.parseMode = "command" →
      ((onTypedTextChar config defsSuggest st c).2.all isCommandModeEvent) = true) := by
  have hm : (st.parseMode == "math") = false := beq_eq_false_iff_ne.mpr h
  unfold onTypedTextChar
  simp only [hm, Bool.false_eq_true, if_false]
  by_cases hc : (st.parseMode == "command") = true
  · simp only [hc, if_pos]
    constructor
    · split
      · split <;> simp [isShortcutEvent]
      · split <;> simp [isShortcutEvent]
    · intro _
      split
      · split <;> simp [isCommandModeEvent]
      · split <;> simp [isCommandModeEvent]
  · have hc' : (st.parseMode == "command") = false := by
      revert hc; cases st.parseMode == "command" <;> simp
    simp only [hc', Bool.false_eq_true, if_false]
    constructor
    · simp [isShortcutEvent]
    · intro hcmd
      exact absurd (by simp [hcmd] : (st.parseMode == "command") = true) (by simp [hc'])

/-- A command-mode field with a pending command string. -/
def commandModeState : MFTypedState :=
  { parseMode := "command", atoms := [TAtom.lit '\\'], undoStack := [], suggestionIndex := 0,
    commandStr := "\\", suggestion := none, decorated := false }

theorem onTypedTextChar_no_shortcut_outside_math_witness :
    ((onTypedTextChar defaultTypedConfig (fun _ => []) commandModeState 'a').2.all
      fun e => !isShortcutEvent e) = true :=
  (onTypedTextChar_no_shortcut_outside_math defaultTypedConfig (fun _ => [])
    commandModeState 'a' (by decide)).1

/-! ## `Commands.suggest` and the command bar table (editor-commands.js) -/

/-- An atom as inspected by the command-bar conditions: its type tag (`mord`,
`mbin`, `mclose`, ...) and its value (the literal character or command name). -/
structure CAtom where
  type : String
  value : String
deriving DecidableEq

/-- The insertion context handed to `Commands.suggest`: the parse mode, the
environment and keyboard modifiers, the parent atom, and the atom sequences
before/inside/after the selection.  `none` stands for a null/undefined
Javascript value (a present-but-empty array is `some []`). -/
structure CommandCtx where
  parsemode : String
  environment : String
  modifiers : String
  parent : Option CAtom
  before : Option (List CAtom)
  selection : Option (List CAtom)
  after : Option (List CAtom)
deriving DecidableEq

/-- `/^[A-Z]$/.test(v)`: exactly one character, in `A`-`Z`. -/
def testUppercase (v : String) : Bool :=
  match v.data with
  | [c] => 'A' ≤ c && c ≤ 'Z'
  | _ => false

/-- `/^[A-Z0-9]$/.test(v)`. -/
def testUppercaseOrDigit (v : String) : Bool :=
  match v.data with
  | [c] => ('A' ≤ c && c ≤ 'Z') || ('0' ≤ c && c ≤ '9')
  | _ => false

/-- `/^[a-zA-Z]$/.test(v)`. -/
def testAlpha (v : String) : Bool :=
  match v.data with
  | [c] => ('a' ≤ c && c ≤ 'z') || ('A' ≤ c && c ≤ 'Z')
  | _ => false

/-- `/[0-9.]/.test(v)`: the value contains a digit or a dot. -/
def testDigitOrDot (v : String) : Bool :=
  v.data.any fun c => ('0' ≤ c && c ≤ '9') || c == '.'

/-- A condition function returns a boolean or throws: `none` models an
uncaught Javascript exception (a TypeError), which aborts the whole
`Commands.suggest` call. -/
abbrev CondResult := Option Bool

/-- editor-commands.js `notInCommandMode` (never throws). -/
def notInCommandMode (ctx : CommandCtx) : CondResult :=
  some (!ctx.selection.isSome && ctx.parsemode != "command")

/-- editor-commands.js `inCommandMode` (never throws). -/
def inCommandMode (ctx : CommandCtx) : CondResult :=
  some (ctx.parsemode == "command")

/-- editor-commands.js `selectionIsNotEmpty` (`ctx.selection !== null`;
never throws). -/
def selectionIsNotEmpty (ctx : CommandCtx) : CondResult :=
  some ctx.selection.isSome

/-- editor-commands.js `selectionIsSingleUppercaseChar`: the selected atoms
filtered down to uppercase ordinary atoms number exactly one (never throws:
`filter` is safe on any array and the guard skips a null selection). -/
def selectionIsSingleUppercaseChar (ctx : CommandCtx) : CondResult :=
  some (match ctx.selection with
  | some sel => (sel.filter fun a => a.type == "mord" && testUppercase a.value).length == 1
  | none => false)

/-- editor-commands.js `selectionIsSingleUppercaseCharOrDigit` (never throws). -/
def selectionIsSingleUppercaseCharOrDigit (ctx : CommandCtx) : CondResult :=
  some (match ctx.selection with
  | some sel => (sel.filter fun a => a.type == "mord" && testUppercaseOrDigit a.value).length == 1
  | none => false)

/-- editor-commands.js `selectionIsSingleAlphaChar` (never throws). -/
def selectionIsSingleAlphaChar (ctx : CommandCtx) : CondResult :=
  some (match ctx.selection with
  | some sel => (sel.filter fun a => a.type == "mord" && testAlpha a.value).length == 1
  | none => false)

/-- editor-commands.js `supsubCandidate`: when `ctx.before` is truthy (any
array, including an empty one) and the parent (if any) is the root, the body
reads `ctx.before[ctx.before.length - 1]` and dereferences `atom.type`; on an
empty `before` that atom is `undefined` and the property access throws a
TypeError (`none`).  Otherwise the last atom must be a closing delimiter or an
ordinary atom other than the zero-width space. -/
def supsubCandidate (ctx : CommandCtx) : CondResult :=
  match ctx.before with
  | some before =>
    if (match ctx.parent with | none => true | some p => p.type == "root") then
      match before.getLast? with
      | some atom =>
        some (((atom.type == "mclose") || (atom.type == "mord")) && atom.value != "\u200b")
      | none => none
    else some false
  | none => some false

/-- editor-commands.js `previousSingleCharOrDigits`: the selection if non-empty,
otherwise the trailing run of ordinary digit/dot atoms before the insertion
point, or failing that the single previous atom. -/
def previousSingleCharOrDigits (ctx : CommandCtx) : Option (List CAtom) :=
  if ctx.selection.isSome && (ctx.selection.getD []).length > 0 then ctx.selection
  else
    match ctx.before with
    | some before =>
      if before.length > 0 then
        let run := (before.reverse.takeWhile fun a =>
          a.type == "mord" && testDigitOrDot a.value).reverse
        if run.isEmpty then some [before.getLastD ⟨"", ""⟩]
        else some run
      else none
    | none => none

/-- The `shortcut` field of a command-bar entry: either the literal string
`'none'`/a single keystroke, or a list of platform keystrokes. -/
inductive ShortcutField where
  | strVal (s : String)
  | listVal (l : List String)
deriving DecidableEq

/-- One positional part of a command selector: a string, or an options
object (key/value pairs). -/
inductive SelPart where
  | str (s : String)
  | opts (kvs : List (String × String))
deriving DecidableEq

/-- A command selector: a bare operation name, or an array of an operation
name followed by arguments. -/
inductive Selector where
  | name (s : String)
  | withArgs (parts : List SelPart)
deriving DecidableEq

/-- One entry of the COMMANDS table of editor-commands.js. -/
structure BarCommand where
  label : String
  cls : Option String
  ariaLabel : Option String
  shortcut : Option ShortcutField
  dynamicLabel : Option String
  selector : Selector
  condition : Option (CommandCtx → CondResult)
  arg : Option (CommandCtx → Option (List CAtom))
  utility : Nat

/-- The COMMANDS table of editor-commands.js (the active entries, in source
order). -/
def COMMANDS : List BarCommand := [
  { label := "&#x21e0", cls := some "glyph", ariaLabel := some "Left",
    shortcut := some (ShortcutField.strVal "none"), dynamicLabel := none,
    selector := Selector.name "moveToPreviousChar", condition := none, arg := none,
    utility := 1004 },
  { label := "&#x21e2", cls := some "glyph", ariaLabel := some "Right",
    shortcut := some (ShortcutField.strVal "none"), dynamicLabel := none,
    selector := Selector.name "moveToNextChar", condition := none, arg := none,
    utility := 1003 },
  { label := "&#x21e5", cls := some "glyph", ariaLabel := some "Tab",
    shortcut := some (ShortcutField.strVal "none"), dynamicLabel := none,
    selector := Selector.name "moveToNextPlaceholder", condition := some notInCommandMode,
    arg := none, utility := 1002 },
  { label := "&#x232b", cls := some "glyph", ariaLabel := some "Backspace",
    shortcut := some (ShortcutField.strVal "none"), dynamicLabel := none,
    selector := Selector.name "deletePreviousChar", condition := none, arg := none,
    utility := 1001 },
  { label := "Copy as LaTeX", cls := none, ariaLabel := none,
    shortcut := some (ShortcutField.listVal ["mac:Meta-KeyC", "!mac:Ctrl-KeyC"]),
    dynamicLabel := none,
    selector := Selector.withArgs [SelPart.str "copyToClipboard"],
    condition := some selectionIsNotEmpty, arg := none, utility := 900 },
  { label := "Fraktur", cls := none, ariaLabel := none, shortcut := none,
    dynamicLabel := some "\\mathfrak\x7b#0\x7d",
    selector := Selector.withArgs [SelPart.str "insert", SelPart.str "\\mathfrak\x7b#0\x7d"],
    condition := some selectionIsSingleUppercaseChar, arg := none, utility := 400 },
  { label := "Calligraphic", cls := none, ariaLabel := none, shortcut := none,
    dynamicLabel := some "\\mathcal\x7b#0\x7d",
    selector := Selector.withArgs [SelPart.str "insert", SelPart.str "\\mathcal\x7b#0\x7d"],
    condition := some selectionIsSingleUppercaseChar, arg := none, utility := 400 },
  { label := "Blackboard", cls := none, ariaLabel := none, shortcut := none,
    dynamicLabel := some "\\mathbb\x7b#0\x7d",
    selector := Selector.withArgs [SelPart.str "insert", SelPart.str "\\mathbb\x7b#0\x7d"],
    condition := some selectionIsSingleUppercaseChar, arg := none, utility := 500 },
  { label := "Script", cls := none, ariaLabel := none, shortcut := none,
    dynamicLabel := some "\\mathscr\x7b#0\x7d",
    selector := Selector.withArgs [SelPart.str "insert", SelPart.str "\\mathscr\x7b#0\x7d"],
    condition := some selectionIsSingleUppercaseChar, arg := none, utility := 300 },
  { label := "Sans Serif", cls := none, ariaLabel := none, shortcut := none,
    dynamicLabel := some "\\mathsf\x7b#0\x7d",
    selector := Selector.withArgs [SelPart.str "insert", SelPart.str "\\mathsf\x7b#0\x7d"],
    condition := some selectionIsSingleUppercaseCharOrDigit, arg := none, utility := 100 },
  { label := "Typewriter", cls := none, ariaLabel := none, shortcut := none,
    dynamicLabel := some "\\mathtt\x7b#0\x7d",
    selector := Selector.withArgs [SelPart.str "insert", SelPart.str "\\mathtt\x7b#0\x7d"],
    condition := some selectionIsNotEmpty, arg := none, utility := 100 },
  { label := "Bold", cls := none, ariaLabel := none, shortcut := none,
    dynamicLabel := some "\\mathbf\x7b#0\x7d",
    selector := Selector.withArgs [SelPart.str "insert", SelPart.str "\\mathbf\x7b#0\x7d"],
    condition := some selectionIsNotEmpty, arg := none, utility := 400 },
  { label := "Vector", cls := none, ariaLabel := none, shortcut := none,
    dynamicLabel := some "\\vec\x7b#0\x7d",
    selector := Selector.withArgs [SelPart.str "insert", SelPart.str "\\vec\x7b#0\x7d",
      SelPart.opts [("selectionMode", "item")]],
    condition := some selectionIsSingleAlphaChar, arg := none, utility := 400 },
  { label := "Bar", cls := none, ariaLabel := none, shortcut := none,
    dynamicLabel := some "\\bar\x7b#0\x7d",
    selector := Selector.withArgs [SelPart.str "insert", SelPart.str "\\bar\x7b#0\x7d"],
    condition := some selectionIsSingleAlphaChar, arg := none, utility := 300 },
  { label := "Superscript", cls := none, ariaLabel := none,
    shortcut := some (ShortcutField.strVal "^"),
    dynamicLabel := some "#0^\\unicode\x7b\"2B1A\x7d",
    selector := Selector.name "moveToSuperscript", condition := some supsubCandidate,
    arg := some previousSingleCharOrDigits, utility := 700 },
  { label := "Subscript", cls := none, ariaLabel := none,
    shortcut := some (ShortcutField.strVal "_"),
    dynamicLabel := some "#0_\\unicode\x7b\"2B1A\x7d",
    selector := Selector.name "moveToSubscript", condition := some supsubCandidate,
    arg := some previousSingleCharOrDigits, utility := 500 },
  { label := "Command", cls := none, ariaLabel := none,
    shortcut := some (ShortcutField.strVal "\\"), dynamicLabel := none,
    selector := Selector.name "enterCommandMode", condition := some notInCommandMode,
    arg := none, utility := 800 },
  { label := "Complete", cls := none, ariaLabel := none,
    shortcut := some (ShortcutField.strVal "Return"), dynamicLabel := none,
    selector := Selector.name "complete", condition := some inCommandMode,
    arg := none, utility := 800 }
]

/-- The functions `Commands.suggest` calls into modules that are not in the
source tree: `Shortcuts.getShortcutsForCommand`/`Shortcuts.stringify`
(editor-shortcuts.js) and the markup rendering `latexToMarkup` (which builds on
the parser and span modules).  They only contribute to the label text of the
entries. -/
structure SuggestDeps where
  getShortcutsForCommand : Selector → Option ShortcutField
  stringify : ShortcutField → String
  latexToMarkup : String → Option (List CAtom) → String

/-- A returned suggestion entry (label, cls, ariaLabel, selector, utility). -/
structure SuggestEntry where
  label : String
  cls : Option String
  ariaLabel : Option String
  selector : Selector
  utility : Nat
deriving DecidableEq

/-- `!command.condition || command.condition(ctx)`: a missing condition
counts as true; a thrown condition (`none`) propagates. -/
def condHolds (cmd : BarCommand) (ctx : CommandCtx) : CondResult :=
  match cmd.condition with
  | none => some true
  | some cond => cond ctx

/-- The entry pushed for one command of the table, from the body of the loop
in `Commands.suggest`. -/
def mkEntry (deps : SuggestDeps) (ctx : CommandCtx) (cmd : BarCommand) : SuggestEntry :=
  let shortcuts : Option ShortcutField :=
    match cmd.shortcut with
    | some s => some s
    | none => deps.getShortcutsForCommand cmd.selector
  let shortcutLabel :=
    match shortcuts with
    | some s => if s == ShortcutField.strVal "none" then "" else deps.stringify s
    | none => ""
  let label :=
    match cmd.dynamicLabel with
    | some dl =>
      let argv :=
        match cmd.arg with
        | none => ctx.selection
        | some f => f ctx
      let l := "<span class=\"ML__dynamicLabel\">" ++ deps.latexToMarkup dl argv ++ "</span>"
      if cmd.label != "" then
        l ++ "<span class=\"ML__shortLabel\">" ++ cmd.label ++
          "<span class=\"ML__keyboardShortcut\">" ++ shortcutLabel ++ "</span>"
      else l
    | none =>
      if shortcutLabel != "" then
        cmd.label ++ "<span class=\"ML__keyboardShortcut\">" ++ shortcutLabel ++ "</span>"
      else cmd.label
  { label := label, cls := cmd.cls, ariaLabel := cmd.ariaLabel,
    selector := cmd.selector, utility := cmd.utility }

/-- `result.sort(function(a, b) { return b.utility - a.utility; })`. -/
def sortByUtility (l : List SuggestEntry) : List SuggestEntry :=
  l.mergeSort fun a b => b.utility ≤ a.utility

/-- The loop of `Commands.suggest` over the command table: collect an entry
for every command whose condition holds; a condition that throws aborts the
whole call (`none` — the exception propagates out of `suggest`, and the
partially built array is discarded). -/
def suggestFilter (deps : SuggestDeps) (ctx : CommandCtx) :
    List BarCommand → Option (List SuggestEntry)
  | [] => some []
  | cmd :: rest =>
    match condHolds cmd ctx with
    | none => none
    | some true =>
      match suggestFilter deps ctx rest with
      | none => none
      | some tail => some (mkEntry deps ctx cmd :: tail)
    | some false => suggestFilter deps ctx rest

/-- Embeds `Commands.suggest` (editor-commands.js lines 300-340): collect an
entry for every command of the table whose condition holds in the given
context, then order by decreasing utility; if any condition throws, the call
throws and returns no list. -/
def suggest (deps : SuggestDeps) (ctx : CommandCtx) : Option (List SuggestEntry) :=
  (suggestFilter deps ctx COMMANDS).map sortByUtility

/-- The Blackboard entry's selector, `['insert', '\mathbb{#0}']`. -/
def blackboardSelector : Selector :=
  Selector.withArgs [SelPart.str "insert", SelPart.str "\\mathbb\x7b#0\x7d"]

/-- The condition as the claim states it: the selection consists of exactly
one atom, and that atom is an uppercase ordinary (mord) atom.  (Stated from
the claim, for comparison with the source condition
`selectionIsSingleUppercaseChar`.) -/
def claimedBlackboardCondition (ctx : CommandCtx) : Bool :=
  match ctx.selection with
  | some [a] => a.type == "mord" && testUppercase a.value
  | _ => false

/-- Dependency functions whose label output is irrelevant. -/
def trivialDeps : SuggestDeps :=
  { getShortcutsForCommand := fun _ => none, stringify := fun _ => "",
    latexToMarkup := fun _ _ => "" }

/-- A selection holding an uppercase ordinary atom and a binary-operator
atom: not a single-atom selection, yet exactly one uppercase mord atom.  The
`before` run is null (falsy), so every condition of the table — in particular
`supsubCandidate` — returns normally and the real `Commands.suggest` produces
a list at this context. -/
def mixedSelectionCtx : CommandCtx :=
  { parsemode := "math", environment := "", modifiers := "", parent := none,
    before := none, selection := some [⟨"mord", "A"⟩, ⟨"mbin", "+"⟩], after := some [] }

theorem mem_sortByUtility (l : List SuggestEntry) (e : SuggestEntry) :
    e ∈ sortByUtility l ↔ e ∈ l :=
  (List.mergeSort_perm l _).mem_iff

theorem mkEntry_selector (deps : SuggestDeps) (ctx : CommandCtx) (cmd : BarCommand) :
    (mkEntry deps ctx cmd).selector = cmd.selector := rfl

/-- C7 counterexample: on a selection of an uppercase mord atom `A` followed by
a binary-operator atom `+` (with a null `before` run, so no condition throws),
`Commands.suggest` returns a list that offers Blackboard although the selection
does not consist of a single uppercase mord atom — the source condition counts
the uppercase mord atoms of the selection instead of requiring the whole
selection to be one. -/
theorem suggest_blackboard_counterexample :
    (∃ l, suggest trivialDeps mixedSelectionCtx = some l ∧
      ∃ e ∈ l, e.selector = blackboardSelector) ∧
    claimedBlackboardCondition mixedSelectionCtx = false := by
  constructor
  · cases hf : suggestFilter trivialDeps mixedSelectionCtx COMMANDS with
    | none => exact absurd hf (by decide)
    | some l0 =>
      refine ⟨sortByUtility l0, by simp [suggest, hf], ?_⟩
      have hl0 : l0 = (suggestFilter trivialDeps mixedSelectionCtx COMMANDS).getD [] := by
        rw [hf]
        rfl
      have h : ∃ e ∈ l0, e.selector = blackboardSelector := by
        rw [hl0]
        decide
      obtain ⟨e, he, hsel⟩ := h
      exact ⟨e, (mem_sortByUtility _ e).mpr he, hsel⟩
  · decide

/-- Modelled from the spec (§4.4): performing the Blackboard entry's selector
`['insert', '\mathbb{#0}']` re-enters the parser on the template with the
selection bound to the argument placeholder `#0`; at the LaTeX level this
substitutes the selection's serialization for each occurrence of `#0`. -/
def substituteArgChars : List Char → List Char → List Char
  | [], _ => []
  | '#' :: '0' :: rest, arg => arg ++ substituteArgChars rest arg
  | c :: rest, arg => c :: substituteArgChars rest arg

/-- `substituteArgChars` lifted to strings. -/
def substituteArg (template arg : String) : String :=
  String.mk (substituteArgChars template.data arg.data)

/-- The Blackboard entry of the COMMANDS table. -/
def blackboardCommand : BarCommand :=
  { label := "Blackboard", cls := none, ariaLabel := none, shortcut := none,
    dynamicLabel := some "\\mathbb\x7b#0\x7d",
    selector := Selector.withArgs [SelPart.str "insert", SelPart.str "\\mathbb\x7b#0\x7d"],
    condition := some selectionIsSingleUppercaseChar, arg := none, utility := 500 }

theorem suggestFilter_mem (deps : SuggestDeps) (ctx : CommandCtx)
    (cmds : List BarCommand) (l : List SuggestEntry)
    (h : suggestFilter deps ctx cmds = some l) (e : SuggestEntry) :
    e ∈ l ↔ ∃ cmd ∈ cmds, condHolds cmd ctx = some true ∧ e = mkEntry deps ctx cmd := by
  induction cmds generalizing l with
  | nil =>
    simp only [suggestFilter, Option.some.injEq] at h
    subst h
    simp
  | cons cmd rest ih =>
    simp only [suggestFilter] at h
    cases hc : condHolds cmd ctx with
    | none => rw [hc] at h; exact absurd h (by simp)
    | some b =>
      rw [hc] at h
      cases b with
      | true =>
        cases hrest : suggestFilter deps ctx rest with
        | none => rw [hrest] at h; exact absurd h (by simp)
        | some tail =>
          rw [hrest] at h
          simp only [Option.some.injEq] at h
          subst h
          simp only [List.mem_cons]
          constructor
          · rintro (rfl | he)
            · exact ⟨cmd, Or.inl rfl, hc, rfl⟩
            · obtain ⟨c, hcm, hcc, rfl⟩ := (ih tail hrest).mp he
              exact ⟨c, Or.inr hcm, hcc, rfl⟩
          · rintro ⟨c, (rfl | hcm), hcc, rfl⟩
            · exact Or.inl rfl
            · exact Or.inr ((ih tail hrest).mpr ⟨c, hcm, hcc, rfl⟩)
      | false =>
        rw [ih l h]
        constructor
        · rintro ⟨c, hcm, hcc, rfl⟩
          exact ⟨c, List.mem_cons_of_mem _ hcm, hcc, rfl⟩
        · rintro ⟨c, hcm, hcc, rfl⟩
          rcases List.mem_cons.mp hcm with rfl | hcm'
          · rw [hc] at hcc
            exact absurd hcc (by simp)
          · exact ⟨c, hcm', hcc, rfl⟩

/-- C7 amended: whenever `Commands.suggest` returns a list (no condition of
the table throws at the given context), that list offers the Blackboard
command exactly when the selection is present and contains exactly one
uppercase ordinary (mord) atom (other atoms may accompany it); the offered
entry carries the selector `['insert', '\mathbb{#0}']`, whose insertion
substitutes the selection for `#0`, so a selected atom `A` yields
`\mathbb{A}`. -/
theorem suggest_blackboard_amended (deps : SuggestDeps) (ctx : CommandCtx) :
    (∀ l, suggest deps ctx = some l →
      ((∃ e ∈ l, e.selector = blackboardSelector) ↔
        selectionIsSingleUppercaseChar ctx = some true)) ∧
    substituteArg "\\mathbb\x7b#0\x7d" "A" = "\\mathbb\x7bA\x7d" := by
  constructor
  · intro l hl
    unfold suggest at hl
    cases hf : suggestFilter deps ctx COMMANDS with
    | none => rw [hf] at hl; exact absurd hl (by simp)
    | some l0 =>
      rw [hf] at hl
      have hl2 : sortByUtility l0 = l := Option.some.inj hl
      subst hl2
      constructor
      · rintro ⟨e, he, hsel⟩
        rw [mem_sortByUtility] at he
        obtain ⟨cmd, hcmd, hcond, rfl⟩ := (suggestFilter_mem deps ctx _ _ hf e).mp he
        rw [mkEntry_selector] at hsel
        simp only [COMMANDS, List.mem_cons, List.not_mem_nil, or_false] at hcmd
        rcases hcmd with rfl | rfl | rfl | rfl | rfl | rfl | rfl | rfl | rfl | rfl | rfl |
          rfl | rfl | rfl | rfl | rfl | rfl | rfl <;>
        first
        | (exact absurd hsel (by decide))
        | (exact hcond)
      · intro hcond
        refine ⟨mkEntry deps ctx blackboardCommand, ?_, rfl⟩
        rw [mem_sortByUtility]
        refine (suggestFilter_mem deps ctx _ _ hf _).mpr
          ⟨blackboardCommand, ?_, hcond, rfl⟩
        simp [COMMANDS, blackboardCommand]
  · decide

/-! ## Purity of `Commands.suggest` (state-passing embedding) -/

/-- The condition check of one loop iteration of `Commands.suggest`, in
state-passing form: the context is threaded through so that any mutation of
the caller's atom sequences or parent would surface in the returned context.
The source condition functions only read `ctx` (they may throw), so the
context is returned unchanged. -/
def condHoldsSt (cmd : BarCommand) (ctx : CommandCtx) : CommandCtx × CondResult :=
  (ctx, condHolds cmd ctx)

/-- The entry construction of one loop iteration, in state-passing form; label
building reads the context (selection, arg function) but does not write it. -/
def mkEntrySt (deps : SuggestDeps) (ctx : CommandCtx) (cmd : BarCommand) :
    CommandCtx × SuggestEntry :=
  (ctx, mkEntry deps ctx cmd)

/-- The loop of `Commands.suggest` with the context threaded through every
condition and entry computation; a thrown condition aborts the loop, with the
context in whatever state the iterations left it (`none` in place of the
list). -/
def suggestLoop (deps : SuggestDeps) :
    List BarCommand → CommandCtx → List SuggestEntry →
      CommandCtx × Option (List SuggestEntry)
  | [], ctx, acc => (ctx, some acc)
  | cmd :: rest, ctx, acc =>
    let c := condHoldsSt cmd ctx
    match c.2 with
    | none => (c.1, none)
    | some true =>
      let e := mkEntrySt deps c.1 cmd
      suggestLoop deps rest e.1 (acc ++ [e.2])
    | some false => suggestLoop deps rest c.1 acc

/-- `Commands.suggest` in state-passing form: run the loop over the command
table, then sort the collected entries by decreasing utility (or propagate the
exception). -/
def suggestSt (deps : SuggestDeps) (ctx : CommandCtx) :
    CommandCtx × Option (List SuggestEntry) :=
  let r := suggestLoop deps COMMANDS ctx []
  (r.1, r.2.map sortByUtility)

theorem suggestLoop_spec (deps : SuggestDeps) (cmds : List BarCommand) (ctx : CommandCtx)
    (acc : List SuggestEntry) :
    suggestLoop deps cmds ctx acc =
      (ctx, (suggestFilter deps ctx cmds).map (fun l => acc ++ l)) := by
  induction cmds generalizing acc with
  | nil => simp [suggestLoop, suggestFilter]
  | cons cmd rest ih =>
    simp only [suggestLoop, condHoldsSt, mkEntrySt, suggestFilter]
    cases hc : condHolds cmd ctx with
    | none => simp
    | some b =>
      cases b with
      | true =>
        simp only [ih]
        cases hrest : suggestFilter deps ctx rest <;> simp [List.append_assoc]
      | false => simp only [ih]

/-- C8: `Commands.suggest` is a pure lookup — the state-passing embedding
returns the caller's context unchanged in every outcome (also when a condition
throws), produces exactly the pure function's result (the candidate list, or
the propagated exception), and two calls with equal contexts have the same
outcome. -/
theorem suggest_pure_lookup (deps : SuggestDeps) (ctx₁ ctx₂ : CommandCtx)
    (h : ctx₁ = ctx₂) :
    (suggestSt deps ctx₁).1 = ctx₁ ∧
    (suggestSt deps ctx₁).2 = suggest deps ctx₁ ∧
    (suggestSt deps ctx₁).2 = (suggestSt deps ctx₂).2 := by
  subst h
  refine ⟨?_, ?_, rfl⟩ <;>
    simp [suggestSt, suggestLoop_spec, suggest, Option.map_map, Function.comp_def]

theorem suggest_pure_lookup_witness :
    (suggestSt trivialDeps mixedSelectionCtx).1 = mixedSelectionCtx :=
  (suggest_pure_lookup trivialDeps mixedSelectionCtx mixedSelectionCtx rfl).1

/-! ## The LaTeX lexer, parser and serializer (spec §4.1, §4.2, §6)

`MathField.latex` (editor-mathfield.js lines 818-832) parses its argument
through the core lexer/parser and serializes the tree through `toLatex`; those
modules (core/lexer.js, core/parser.js, addons/outputLatex.js) are not in the
source tree, so the whole pipeline below is modelled from the spec:
tokenization per §4.1, recursive-descent parsing with a symbol table, argument
arity, script attachment and unknown-command recovery per §4.2/§7, and a
serializer emitting canonical braces per §4.2/§6.  The parser and lexer use a
fuel argument (structural recursion) so that every function evaluates by
kernel reduction; fuel `length + 1` is always sufficient. -/

/-- A token of the LaTeX lexer (spec §4.1): control sequence (name as a
character list), character, grouping braces, script markers, alignment
marker.  End-of-input is the end of the token list. -/
inductive Tok where
  | char (c : Char)
  | cs (name : List Char)
  | bgroup
  | egroup
  | sup
  | sub
  | align
deriving DecidableEq

/-- Characters with a lexical role of their own. -/
def isSpecialChar (c : Char) : Bool :=
  c == '\\' || c == '\x7b' || c == '\x7d' || c == '^' || c == '_' || c == '&'

/-- A character that lexes as an ordinary character token. -/
def isPlainChar (c : Char) : Bool :=
  !isSpecialChar c && !c.isWhitespace

/-- Modelled from the spec (§4.1): the lexer.  A backslash followed by letters
is a control sequence; a backslash followed by a single non-letter is a
one-character control sequence; braces, `^`, `_`, `&` are their own tokens;
whitespace is a separator and is otherwise discarded; everything else is a
character token. -/
def lexAux : Nat → List Char → List Tok
  | 0, _ => []
  | _ + 1, [] => []
  | fuel + 1, c :: rest =>
    if c == '\\' then
      match rest with
      | [] => [Tok.cs []]
      | d :: rest' =>
        if d.isAlpha then
          Tok.cs (d :: rest'.takeWhile Char.isAlpha) ::
            lexAux fuel (rest'.dropWhile Char.isAlpha)
        else Tok.cs [d] :: lexAux fuel rest'
    else if c == '\x7b' then Tok.bgroup :: lexAux fuel rest
    else if c == '\x7d' then Tok.egroup :: lexAux fuel rest
    else if c == '^' then Tok.sup :: lexAux fuel rest
    else if c == '_' then Tok.sub :: lexAux fuel rest
    else if c == '&' then Tok.align :: lexAux fuel rest
    else if c.isWhitespace then lexAux fuel rest
    else Tok.char c :: lexAux fuel rest

/-- Tokenize a character list. -/
def tokenize (l : List Char) : List Tok := lexAux (l.length + 1) l

/-- Modelled from the spec (§3, §4.2): an atom of the expression tree, as far
as serialization is concerned: ordinary character, zero-argument symbol
command, fraction (two arguments), radical (one argument), braced group,
placeholder (spec §3: an empty atom a script attaches to when no atom
precedes), an atom carrying a superscript and/or subscript, and the marked
unknown-command atom (spec §7). -/
inductive MAtom where
  | sym (c : Char)
  | sym0 (name : List Char)
  | frac (num den : List MAtom)
  | sqrt (body : List MAtom)
  | group (body : List MAtom)
  | placeholder
  | scripted (base : MAtom) (supPart subPart : Option (List MAtom))
  | unknown (name : List Char)

/-- `\frac`. -/
def fracName : List Char := ['f', 'r', 'a', 'c']

/-- `\sqrt`. -/
def sqrtName : List Char := ['s', 'q', 'r', 't']

/-- `&` recovered as a marked unknown atom. -/
def alignName : List Char := ['&']

/-- Modelled from the spec (§4.3): the zero-argument entries of the symbol
table (a representative sample; the table is read-only configuration data). -/
def symbolTable0 : List (List Char) :=
  [['a', 'l', 'p', 'h', 'a'], ['b', 'e', 't', 'a'], ['g', 'a', 'm', 'm', 'a'], ['p', 'i']]

mutual
/-- Modelled from the spec (§6, §4.2): serialize one atom to tokens; arguments
and script bodies always get braces (the canonical form, cf. §8 example 1). -/
def serToksA : MAtom → List Tok
  | MAtom.sym c => [Tok.char c]
  | MAtom.sym0 n => [Tok.cs n]
  | MAtom.frac num den =>
    Tok.cs fracName :: Tok.bgroup :: (serToksL num ++ Tok.egroup :: Tok.bgroup ::
      (serToksL den ++ [Tok.egroup]))
  | MAtom.sqrt body => Tok.cs sqrtName :: Tok.bgroup :: (serToksL body ++ [Tok.egroup])
  | MAtom.group body => Tok.bgroup :: (serToksL body ++ [Tok.egroup])
  | MAtom.placeholder => []
  | MAtom.scripted base supPart subPart =>
    serToksA base ++
    (match supPart with
     | some s => Tok.sup :: Tok.bgroup :: (serToksL s ++ [Tok.egroup])
     | none => []) ++
    (match subPart with
     | some s => Tok.sub :: Tok.bgroup :: (serToksL s ++ [Tok.egroup])
     | none => [])
  | MAtom.unknown n => [Tok.cs n]

/-- Serialize an atom list to tokens. -/
def serToksL : List MAtom → List Tok
  | [] => []
  | a :: rest => serToksA a ++ serToksL rest
end

/-- A control-sequence name that is all letters (and nonempty). -/
def isAlphaName (n : List Char) : Bool := !n.isEmpty && n.all Char.isAlpha

/-- Render one token back to characters; an all-letter control sequence gets a
trailing separator space so that a following letter does not extend the
name. -/
def renderTok : Tok → List Char
  | Tok.char c => [c]
  | Tok.cs n => '\\' :: (n ++ if isAlphaName n then [' '] else [])
  | Tok.bgroup => ['\x7b']
  | Tok.egroup => ['\x7d']
  | Tok.sup => ['^']
  | Tok.sub => ['_']
  | Tok.align => ['&']

/-- Render a token list back to characters. -/
def renderToks (ts : List Tok) : List Char := (ts.map renderTok).flatten

/-- The result of parsing one command argument (spec §4.2: a balanced group or
a single atom): a hard failure (a rejected double script inside), a missing
argument (spec §7 InvalidArgumentCount), or the argument with the remaining
tokens. -/
inductive ArgResult where
  | hardFail
  | noArg
  | ok (atoms : List MAtom) (rest : List Tok)

/-- Is this atom a script carrier? -/
def isScripted : MAtom → Bool
  | MAtom.scripted _ _ _ => true
  | _ => false

/-- Modelled from the spec (§4.2): attach a superscript to the previously
parsed atom (or to an empty placeholder if none precedes); a second
superscript on the same atom is rejected. -/
def attachSup (acc : List MAtom) (arg : List MAtom) : Option (List MAtom) :=
  match acc.getLast? with
  | none => some [MAtom.scripted MAtom.placeholder (some arg) none]
  | some (MAtom.scripted base s t) =>
    match s with
    | some _ => none
    | none => some (acc.dropLast ++ [MAtom.scripted base (some arg) t])
  | some a => some (acc.dropLast ++ [MAtom.scripted a (some arg) none])

/-- Modelled from the spec (§4.2): attach a subscript; a second subscript on
the same atom is rejected. -/
def attachSub (acc : List MAtom) (arg : List MAtom) : Option (List MAtom) :=
  match acc.getLast? with
  | none => some [MAtom.scripted MAtom.placeholder none (some arg)]
  | some (MAtom.scripted base s t) =>
    match t with
    | some _ => none
    | none => some (acc.dropLast ++ [MAtom.scripted base s (some arg)])
  | some a => some (acc.dropLast ++ [MAtom.scripted a none (some arg)])

mutual
/-- Modelled from the spec (§4.2, §7): recursive-descent parsing of an atom
sequence.  `acc` holds the atoms parsed so far (scripts attach to its last
element).  Returns the atoms, the tokens after the terminating `}` (or `[]` at
end of input — an unterminated group is recovered by the implicit close of
§4.1), and whether a `}` ended the sequence.  Control sequences resolve
against the symbol table; `\frac` takes two arguments, `\sqrt` one; a command
whose arguments are missing is recovered as an unknown-command atom (§7
InvalidArgumentCount); unknown control sequences and `&` become marked
unknown-command atoms; a second script of the same kind on one atom is
rejected (`none`). -/
def parseSeqAux : Nat → List MAtom → List Tok → Option (List MAtom × List Tok × Bool)
  | 0, _, _ => none
  | _ + 1, acc, [] => some (acc, [], false)
  | _ + 1, acc, Tok.egroup :: rest => some (acc, rest, true)
  | fuel + 1, acc, Tok.bgroup :: rest =>
    (match parseSeqAux fuel [] rest with
     | none => none
     | some (body, rest', _) => parseSeqAux fuel (acc ++ [MAtom.group body]) rest')
  | fuel + 1, acc, Tok.sup :: rest =>
    (match parseArg fuel rest with
     | ArgResult.hardFail => none
     | ArgResult.noArg => none
     | ArgResult.ok arg rest' =>
       match attachSup acc arg with
       | none => none
       | some acc' => parseSeqAux fuel acc' rest')
  | fuel + 1, acc, Tok.sub :: rest =>
    (match parseArg fuel rest with
     | ArgResult.hardFail => none
     | ArgResult.noArg => none
     | ArgResult.ok arg rest' =>
       match attachSub acc arg with
       | none => none
       | some acc' => parseSeqAux fuel acc' rest')
  | fuel + 1, acc, Tok.align :: rest => parseSeqAux fuel (acc ++ [MAtom.unknown alignName]) rest
  | fuel + 1, acc, Tok.char c :: rest => parseSeqAux fuel (acc ++ [MAtom.sym c]) rest
  | fuel + 1, acc, Tok.cs n :: rest =>
    if n = fracName then
      match parseArg fuel rest with
      | ArgResult.hardFail => none
      | ArgResult.noArg => parseSeqAux fuel (acc ++ [MAtom.unknown n]) rest
      | ArgResult.ok a1 r1 =>
        match parseArg fuel r1 with
        | ArgResult.hardFail => none
        | ArgResult.noArg => parseSeqAux fuel (acc ++ [MAtom.unknown n]) rest
        | ArgResult.ok a2 r2 => parseSeqAux fuel (acc ++ [MAtom.frac a1 a2]) r2
    else if n = sqrtName then
      match parseArg fuel rest with
      | ArgResult.hardFail => none
      | ArgResult.noArg => parseSeqAux fuel (acc ++ [MAtom.unknown n]) rest
      | ArgResult.ok a1 r1 => parseSeqAux fuel (acc ++ [MAtom.sqrt a1]) r1
    else if symbolTable0.contains n then parseSeqAux fuel (acc ++ [MAtom.sym0 n]) rest
    else parseSeqAux fuel (acc ++ [MAtom.unknown n]) rest

/-- Modelled from the spec (§4.2): parse one command argument — a balanced
group (with implicit close at end of input) or a single atom. -/
def parseArg : Nat → List Tok → ArgResult
  | 0, _ => ArgResult.hardFail
  | _ + 1, [] => ArgResult.noArg
  | fuel + 1, Tok.bgroup :: rest =>
    (match parseSeqAux fuel [] rest with
     | none => ArgResult.hardFail
     | some (body, rest', _) => ArgResult.ok body rest')
  | _ + 1, Tok.egroup :: _ => ArgResult.noArg
  | _ + 1, Tok.sup :: _ => ArgResult.noArg
  | _ + 1, Tok.sub :: _ => ArgResult.noArg
  | _ + 1, Tok.align :: rest => ArgResult.ok [MAtom.unknown alignName] rest
  | _ + 1, Tok.char c :: rest => ArgResult.ok [MAtom.sym c] rest
  | fuel + 1, Tok.cs n :: rest =>
    if n = fracName then
      match parseArg fuel rest with
      | ArgResult.hardFail => ArgResult.hardFail
      | ArgResult.noArg => ArgResult.ok [MAtom.unknown n] rest
      | ArgResult.ok a1 r1 =>
        match parseArg fuel r1 with
        | ArgResult.hardFail => ArgResult.hardFail
        | ArgResult.noArg => ArgResult.ok [MAtom.unknown n] rest
        | ArgResult.ok a2 r2 => ArgResult.ok [MAtom.frac a1 a2] r2
    else if n = sqrtName then
      match parseArg fuel rest with
      | ArgResult.hardFail => ArgResult.hardFail
      | ArgResult.noArg => ArgResult.ok [MAtom.unknown n] rest
      | ArgResult.ok a1 r1 => ArgResult.ok [MAtom.sqrt a1] r1
    else if symbolTable0.contains n then ArgResult.ok [MAtom.sym0 n] rest
    else ArgResult.ok [MAtom.unknown n] rest
end

/-- Parse a token list to an atom forest: the sequence must consume the whole
input and must not be ended by a stray `}`; a rejected double script also
yields `none`. -/
def parseToks (toks : List Tok) : Option (List MAtom) :=
  match parseSeqAux (toks.length + 1) [] toks with
  | some (atoms, [], false) => some atoms
  | _ => none

/-- Modelled from the spec (§4.2): parse LaTeX source. -/
def parse (s : String) : Option (List MAtom) := parseToks (tokenize s.data)

/-- Modelled from the spec (§6, §4.2): serialize an atom forest to LaTeX. -/
def serializeL (ts : List MAtom) : String := String.mk (renderToks (serToksL ts))

mutual
/-- No unknown-command atom anywhere in the atom (spec §7: input accepted
without UnknownCommand). -/
def noUnknownA : MAtom → Bool
  | MAtom.sym _ => true
  | MAtom.sym0 _ => true
  | MAtom.frac num den => noUnknownL num && noUnknownL den
  | MAtom.sqrt body => noUnknownL body
  | MAtom.group body => noUnknownL body
  | MAtom.placeholder => true
  | MAtom.scripted base supPart subPart =>
    noUnknownA base && noUnknownOpt supPart && noUnknownOpt subPart
  | MAtom.unknown _ => false

/-- No unknown-command atom in an optional script body. -/
def noUnknownOpt : Option (List MAtom) → Bool
  | some s => noUnknownL s
  | none => true

/-- No unknown-command atom anywhere in the forest. -/
def noUnknownL : List MAtom → Bool
  | [] => true
  | a :: rest => noUnknownA a && noUnknownL rest
end

/-- A scripted atom whose base is the empty placeholder (a script with no
preceding atom). -/
def isPhScripted : MAtom → Bool
  | MAtom.scripted base _ _ =>
    (match base with
     | MAtom.placeholder => true
     | _ => false)
  | _ => false

/-- A name the lexer can read back: nonempty and all letters, or a single
non-letter. -/
def goodCsName (n : List Char) : Bool :=
  (!n.isEmpty && n.all Char.isAlpha) ||
  (match n with
   | [c] => !c.isAlpha
   | _ => false)

mutual
/-- Well-formedness of one atom, as established by the parser: character atoms
hold plain characters; symbol atoms resolve in the table; a scripted atom has
an unscripted base (a placeholder or a well-formed atom) and at least one
script; bare placeholders do not occur; unknown-command atoms carry a readable
name that does not resolve. -/
def wfA : MAtom → Bool
  | MAtom.sym c => isPlainChar c
  | MAtom.sym0 n => symbolTable0.contains n
  | MAtom.frac num den => wfL num && wfL den
  | MAtom.sqrt body => wfL body
  | MAtom.group body => wfL body
  | MAtom.placeholder => false
  | MAtom.scripted base supPart subPart =>
    (match base with
     | MAtom.placeholder => true
     | MAtom.scripted _ _ _ => false
     | b => wfA b) &&
    (supPart.isSome || subPart.isSome) && wfOpt supPart && wfOpt subPart
  | MAtom.unknown n =>
    goodCsName n && !(n == fracName) && !(n == sqrtName) && !symbolTable0.contains n

/-- Well-formedness of an optional script body. -/
def wfOpt : Option (List MAtom) → Bool
  | some s => wfL s
  | none => true

/-- Well-formedness of a forest: every atom is well-formed, and only the first
atom may carry a script on a placeholder base. -/
def wfL : List MAtom → Bool
  | [] => true
  | a :: rest => wfA a && wfTail rest

/-- Well-formedness of the non-head part of a forest. -/
def wfTail : List MAtom → Bool
  | [] => true
  | a :: rest => wfA a && !isPhScripted a && wfTail rest
end

theorem parse_rest_suffix (fuel : Nat) :
    (∀ acc toks ats rest b, parseSeqAux fuel acc toks = some (ats, rest, b) → rest <:+ toks) ∧
    (∀ toks ats rest, parseArg fuel toks = ArgResult.ok ats rest →
      rest <:+ toks ∧ rest.length < toks.length) := by
  induction fuel with
  | zero =>
    constructor
    · intro acc toks ats rest b h
      simp [parseSeqAux] at h
    · intro toks ats rest h
      simp [parseArg] at h
  | succ fuel ih =>
    obtain ⟨ihSeq, ihArg⟩ := ih
    constructor
    · intro acc toks ats rest b h
      match toks with
      | [] =>
        simp only [parseSeqAux] at h
        cases h
        exact List.nil_suffix
      | Tok.egroup :: rest₀ =>
        simp only [parseSeqAux] at h
        cases h
        exact List.suffix_cons _ _
      | Tok.bgroup :: rest₀ =>
        simp only [parseSeqAux] at h
        cases hin : parseSeqAux fuel [] rest₀ with
        | none => rw [hin] at h; exact absurd h (by simp)
        | some r =>
          obtain ⟨body, rest', b'⟩ := r
          rw [hin] at h
          simp only at h
          have h1 := ihSeq _ _ _ _ _ hin
          have h2 := ihSeq _ _ _ _ _ h
          exact (h2.trans h1).trans (List.suffix_cons _ _)
      | Tok.sup :: rest₀ =>
        simp only [parseSeqAux] at h
        cases harg : parseArg fuel rest₀ with
        | hardFail => rw [harg] at h; exact absurd h (by simp)
        | noArg => rw [harg] at h; exact absurd h (by simp)
        | ok arg rest' =>
          rw [harg] at h
          simp only at h
          cases hat : attachSup acc arg with
          | none => rw [hat] at h; exact absurd h (by simp)
          | some acc' =>
            rw [hat] at h
            simp only at h
            have h1 := (ihArg _ _ _ harg).1
            have h2 := ihSeq _ _ _ _ _ h
            exact (h2.trans h1).trans (List.suffix_cons _ _)
      | Tok.sub :: rest₀ =>
        simp only [parseSeqAux] at h
        cases harg : parseArg fuel rest₀ with
        | hardFail => rw [harg] at h; exact absurd h (by simp)
        | noArg => rw [harg] at h; exact absurd h (by simp)
        | ok arg rest' =>
          rw [harg] at h
          simp only at h
          cases hat : attachSub acc arg with
          | none => rw [hat] at h; exact absurd h (by simp)
          | some acc' =>
            rw [hat] at h
            simp only at h
            have h1 := (ihArg _ _ _ harg).1
            have h2 := ihSeq _ _ _ _ _ h
            exact (h2.trans h1).trans (List.suffix_cons _ _)
      | Tok.align :: rest₀ =>
        simp only [parseSeqAux] at h
        exact (ihSeq _ _ _ _ _ h).trans (List.suffix_cons _ _)
      | Tok.char c :: rest₀ =>
        simp only [parseSeqAux] at h
        exact (ihSeq _ _ _ _ _ h).trans (List.suffix_cons _ _)
      | Tok.cs n :: rest₀ =>
        simp only [parseSeqAux] at h
        by_cases hf : n = fracName
        · rw [if_pos hf] at h
          cases harg : parseArg fuel rest₀ with
          | hardFail => rw [harg] at h; exact absurd h (by simp)
          | noArg =>
            rw [harg] at h
            exact (ihSeq _ _ _ _ _ h).trans (List.suffix_cons _ _)
          | ok a1 r1 =>
            rw [harg] at h
            simp only at h
            cases harg2 : parseArg fuel r1 with
            | hardFail => rw [harg2] at h; exact absurd h (by simp)
            | noArg =>
              rw [harg2] at h
              exact (ihSeq _ _ _ _ _ h).trans (List.suffix_cons _ _)
            | ok a2 r2 =>
              rw [harg2] at h
              simp only at h
              have h1 := (ihArg _ _ _ harg).1
              have h2 := (ihArg _ _ _ harg2).1
              have h3 := ihSeq _ _ _ _ _ h
              exact ((h3.trans h2).trans h1).trans (List.suffix_cons _ _)
        · rw [if_neg hf] at h
          by_cases hs : n = sqrtName
          · rw [if_pos hs] at h
            cases harg : parseArg fuel rest₀ with
            | hardFail => rw [harg] at h; exact absurd h (by simp)
            | noArg =>
              rw [harg] at h
              exact (ihSeq _ _ _ _ _ h).trans (List.suffix_cons _ _)
            | ok a1 r1 =>
              rw [harg] at h
              simp only at h
              have h1 := (ihArg _ _ _ harg).1
              have h3 := ihSeq _ _ _ _ _ h
              exact (h3.trans h1).trans (List.suffix_cons _ _)
          · rw [if_neg hs] at h
            by_cases ht : symbolTable0.contains n
            · rw [if_pos ht] at h
              exact (ihSeq _ _ _ _ _ h).trans (List.suffix_cons _ _)
            · rw [if_neg ht] at h
              exact (ihSeq _ _ _ _ _ h).trans (List.suffix_cons _ _)
    · intro toks ats rest h
      match toks with
      | [] =>
        simp only [parseArg] at h
        exact ArgResult.noConfusion h
      | Tok.egroup :: rest₀ =>
        simp only [parseArg] at h
        exact ArgResult.noConfusion h
      | Tok.sup :: rest₀ =>
        simp only [parseArg] at h
        exact ArgResult.noConfusion h
      | Tok.sub :: rest₀ =>
        simp only [parseArg] at h
        exact ArgResult.noConfusion h
      | Tok.align :: rest₀ =>
        simp only [parseArg] at h
        cases h
        exact ⟨List.suffix_cons _ _, by simp⟩
      | Tok.char c :: rest₀ =>
        simp only [parseArg] at h
        cases h
        exact ⟨List.suffix_cons _ _, by simp⟩
      | Tok.bgroup :: rest₀ =>
        simp only [parseArg] at h
        cases hin : parseSeqAux fuel [] rest₀ with
        | none => rw [hin] at h; exact absurd h (by simp)
        | some r =>
          obtain ⟨body, rest', b'⟩ := r
          rw [hin] at h
          simp only at h
          cases h
          have h1 := ihSeq _ _ _ _ _ hin
          refine ⟨h1.trans (List.suffix_cons _ _), ?_⟩
          have := h1.length_le
          simp only [List.length_cons]
          omega
      | Tok.cs n :: rest₀ =>
        simp only [parseArg] at h
        by_cases hf : n = fracName
        · rw [if_pos hf] at h
          cases harg : parseArg fuel rest₀ with
          | hardFail => rw [harg] at h; exact absurd h (by simp)
          | noArg =>
            rw [harg] at h
            cases h
            exact ⟨List.suffix_cons _ _, by simp⟩
          | ok a1 r1 =>
            rw [harg] at h
            simp only at h
            cases harg2 : parseArg fuel r1 with
            | hardFail => rw [harg2] at h; exact absurd h (by simp)
            | noArg =>
              rw [harg2] at h
              cases h
              exact ⟨List.suffix_cons _ _, by simp⟩
            | ok a2 r2 =>
              rw [harg2] at h
              cases h
              have h1 := ihArg _ _ _ harg
              have h2 := ihArg _ _ _ harg2
              refine ⟨(h2.1.trans h1.1).trans (List.suffix_cons _ _), ?_⟩
              have := h1.2
              have := h2.2
              simp only [List.length_cons]
              omega
        · rw [if_neg hf] at h
          by_cases hs : n = sqrtName
          · rw [if_pos hs] at h
            cases harg : parseArg fuel rest₀ with
            | hardFail => rw [harg] at h; exact absurd h (by simp)
            | noArg =>
              rw [harg] at h
              cases h
              exact ⟨List.suffix_cons _ _, by simp⟩
            | ok a1 r1 =>
              rw [harg] at h
              cases h
              have h1 := ihArg _ _ _ harg
              refine ⟨h1.1.trans (List.suffix_cons _ _), ?_⟩
              have := h1.2
              simp only [List.length_cons]
              omega
          · rw [if_neg hs] at h
            by_cases ht : symbolTable0.contains n
            · rw [if_pos ht] at h
              cases h
              exact ⟨List.suffix_cons _ _, by simp⟩
            · rw [if_neg ht] at h
              cases h
              exact ⟨List.suffix_cons _ _, by simp⟩

theorem parse_fuel_irrelevant (n : Nat) :
    ∀ toks : List Tok, toks.length ≤ n →
    (∀ f g acc, toks.length + 1 ≤ f → toks.length + 1 ≤ g →
      parseSeqAux f acc toks = parseSeqAux g acc toks) ∧
    (∀ f g, toks.length + 1 ≤ f → toks.length + 1 ≤ g →
      parseArg f toks = parseArg g toks) := by
  induction n using Nat.strong_induction_on with
  | _ n ih =>
    intro toks hlen
    constructor
    · intro f g acc hf hg
      match f, g with
      | f' + 1, g' + 1 =>
        match toks, hlen with
        | [], _ => rfl
        | Tok.egroup :: rest, _ => rfl
        | Tok.char c :: rest, hlen =>
          simp only [parseSeqAux]
          have hr : rest.length < n := by simp at hlen; omega
          exact (ih rest.length hr rest le_rfl).1 f' g' _ (by simp at hf; omega)
            (by simp at hg; omega)
        | Tok.align :: rest, hlen =>
          simp only [parseSeqAux]
          have hr : rest.length < n := by simp at hlen; omega
          exact (ih rest.length hr rest le_rfl).1 f' g' _ (by simp at hf; omega)
            (by simp at hg; omega)
        | Tok.bgroup :: rest, hlen =>
          simp only [parseSeqAux]
          have hr : rest.length < n := by simp at hlen; omega
          have hf' : rest.length + 1 ≤ f' := by simp at hf; omega
          have hg' : rest.length + 1 ≤ g' := by simp at hg; omega
          have hin : parseSeqAux f' [] rest = parseSeqAux g' [] rest :=
            (ih rest.length hr rest le_rfl).1 f' g' [] hf' hg'
          rw [← hin]
          cases hv : parseSeqAux f' [] rest with
          | none => rfl
          | some r =>
            obtain ⟨body, rest', b'⟩ := r
            simp only
            have hsuf := (parse_rest_suffix f').1 _ _ _ _ _ hv
            have hle := hsuf.length_le
            exact (ih rest'.length (by omega) rest' le_rfl).1 f' g' _ (by omega) (by omega)
        | Tok.sup :: rest, hlen =>
          simp only [parseSeqAux]
          have hr : rest.length < n := by simp at hlen; omega
          have hf' : rest.length + 1 ≤ f' := by simp at hf; omega
          have hg' : rest.length + 1 ≤ g' := by simp at hg; omega
          have hin : parseArg f' rest = parseArg g' rest :=
            (ih rest.length hr rest le_rfl).2 f' g' hf' hg'
          rw [← hin]
          cases hv : parseArg f' rest with
          | hardFail => rfl
          | noArg => rfl
          | ok arg rest' =>
            simp only
            cases attachSup acc arg with
            | none => rfl
            | some acc' =>
              simp only
              have hsuf := (parse_rest_suffix f').2 _ _ _ hv
              have hle := hsuf.1.length_le
              exact (ih rest'.length (by omega) rest' le_rfl).1 f' g' _ (by omega) (by omega)
        | Tok.sub :: rest, hlen =>
          simp only [parseSeqAux]
          have hr : rest.length < n := by simp at hlen; omega
          have hf' : rest.length + 1 ≤ f' := by simp at hf; omega
          have hg' : rest.length + 1 ≤ g' := by simp at hg; omega
          have hin : parseArg f' rest = parseArg g' rest :=
            (ih rest.length hr rest le_rfl).2 f' g' hf' hg'
          rw [← hin]
          cases hv : parseArg f' rest with
          | hardFail => rfl
          | noArg => rfl
          | ok arg rest' =>
            simp only
            cases attachSub acc arg with
            | none => rfl
            | some acc' =>
              simp only
              have hsuf := (parse_rest_suffix f').2 _ _ _ hv
              have hle := hsuf.1.length_le
              exact (ih rest'.length (by omega) rest' le_rfl).1 f' g' _ (by omega) (by omega)
        | Tok.cs m :: rest, hlen =>
          simp only [parseSeqAux]
          have hr : rest.length < n := by simp at hlen; omega
          have hf' : rest.length + 1 ≤ f' := by simp at hf; omega
          have hg' : rest.length + 1 ≤ g' := by simp at hg; omega
          have hin : parseArg f' rest = parseArg g' rest :=
            (ih rest.length hr rest le_rfl).2 f' g' hf' hg'
          have hrec : ∀ acc', parseSeqAux f' acc' rest = parseSeqAux g' acc' rest :=
            fun acc' => (ih rest.length hr rest le_rfl).1 f' g' acc' hf' hg'
          by_cases hfr : m = fracName
          · rw [if_pos hfr, if_pos hfr, ← hin]
            cases hv : parseArg f' rest with
            | hardFail => rfl
            | noArg => exact hrec _
            | ok a1 r1 =>
              simp only
              have hsuf := (parse_rest_suffix f').2 _ _ _ hv
              have hle := hsuf.1.length_le
              have hin2 : parseArg f' r1 = parseArg g' r1 :=
                (ih r1.length (by omega) r1 le_rfl).2 f' g' (by omega) (by omega)
              rw [← hin2]
              cases hv2 : parseArg f' r1 with
              | hardFail => rfl
              | noArg => exact hrec _
              | ok a2 r2 =>
                simp only
                have hsuf2 := (parse_rest_suffix f').2 _ _ _ hv2
                have hle2 := hsuf2.1.length_le
                exact (ih r2.length (by omega) r2 le_rfl).1 f' g' _ (by omega) (by omega)
          · rw [if_neg hfr, if_neg hfr]
            by_cases hsq : m = sqrtName
            · rw [if_pos hsq, if_pos hsq, ← hin]
              cases hv : parseArg f' rest with
              | hardFail => rfl
              | noArg => exact hrec _
              | ok a1 r1 =>
                simp only
                have hsuf := (parse_rest_suffix f').2 _ _ _ hv
                have hle := hsuf.1.length_le
                exact (ih r1.length (by omega) r1 le_rfl).1 f' g' _ (by omega) (by omega)
            · rw [if_neg hsq, if_neg hsq]
              by_cases htb : symbolTable0.contains m
              · rw [if_pos htb, if_pos htb]
                exact hrec _
              · rw [if_neg htb, if_neg htb]
                exact hrec _
    · intro f g hf hg
      match f, g with
      | f' + 1, g' + 1 =>
        match toks, hlen with
        | [], _ => rfl
        | Tok.egroup :: rest, _ => rfl
        | Tok.sup :: rest, _ => rfl
        | Tok.sub :: rest, _ => rfl
        | Tok.align :: rest, _ => rfl
        | Tok.char c :: rest, _ => rfl
        | Tok.bgroup :: rest, hlen =>
          simp only [parseArg]
          have hr : rest.length < n := by simp at hlen; omega
          have hf' : rest.length + 1 ≤ f' := by simp at hf; omega
          have hg' : rest.length + 1 ≤ g' := by simp at hg; omega
          rw [(ih rest.length hr rest le_rfl).1 f' g' [] hf' hg']
        | Tok.cs m :: rest, hlen =>
          simp only [parseArg]
          have hr : rest.length < n := by simp at hlen; omega
          have hf' : rest.length + 1 ≤ f' := by simp at hf; omega
          have hg' : rest.length + 1 ≤ g' := by simp at hg; omega
          have hin : parseArg f' rest = parseArg g' rest :=
            (ih rest.length hr rest le_rfl).2 f' g' hf' hg'
          by_cases hfr : m = fracName
          · rw [if_pos hfr, if_pos hfr, ← hin]
            cases hv : parseArg f' rest with
            | hardFail => rfl
            | noArg => rfl
            | ok a1 r1 =>
              simp only
              have hsuf := (parse_rest_suffix f').2 _ _ _ hv
              have hle := hsuf.1.length_le
              have hin2 : parseArg f' r1 = parseArg g' r1 :=
                (ih r1.length (by omega) r1 le_rfl).2 f' g' (by omega) (by omega)
              rw [← hin2]
          · rw [if_neg hfr, if_neg hfr]
            by_cases hsq : m = sqrtName
            · rw [if_pos hsq, if_pos hsq, ← hin]
            · rw [if_neg hsq, if_neg hsq]

/-- The parser at its canonical fuel (always sufficient). -/
def parseSeqN (acc : List MAtom) (toks : List Tok) : Option (List MAtom × List Tok × Bool) :=
  parseSeqAux (toks.length + 1) acc toks

/-- Argument parsing at its canonical fuel. -/
def parseArgN (toks : List Tok) : ArgResult :=
  parseArg (toks.length + 1) toks

theorem parseSeqAux_eq_N (f : Nat) (acc : List MAtom) (toks : List Tok)
    (hf : toks.length + 1 ≤ f) : parseSeqAux f acc toks = parseSeqN acc toks :=
  (parse_fuel_irrelevant toks.length toks le_rfl).1 f _ acc hf le_rfl

theorem parseArg_eq_N (f : Nat) (toks : List Tok) (hf : toks.length + 1 ≤ f) :
    parseArg f toks = parseArgN toks :=
  (parse_fuel_irrelevant toks.length toks le_rfl).2 f _ hf le_rfl

theorem parseSeqN_nil (acc : List MAtom) : parseSeqN acc [] = some (acc, [], false) := rfl

theorem parseSeqN_egroup (acc : List MAtom) (rest : List Tok) :
    parseSeqN acc (Tok.egroup :: rest) = some (acc, rest, true) := rfl

theorem parseSeqN_char (acc : List MAtom) (c : Char) (rest : List Tok) :
    parseSeqN acc (Tok.char c :: rest) = parseSeqN (acc ++ [MAtom.sym c]) rest := rfl

theorem parseSeqN_bgroup (acc : List MAtom) (rest : List Tok) :
    parseSeqN acc (Tok.bgroup :: rest) =
      (match parseSeqN [] rest with
       | none => none
       | some (body, rest', _) => parseSeqN (acc ++ [MAtom.group body]) rest') := by
  show parseSeqAux (rest.length + 1 + 1) acc (Tok.bgroup :: rest) = _
  simp only [parseSeqAux]
  show (match parseSeqN [] rest with
        | none => none
        | some (body, rest', _) => parseSeqAux (rest.length + 1) (acc ++ [MAtom.group body]) rest')
      = _
  cases hv : parseSeqN [] rest with
  | none => rfl
  | some r =>
    obtain ⟨body, rest', b'⟩ := r
    simp only
    have hsuf := (parse_rest_suffix (rest.length + 1)).1 _ _ _ _ _ hv
    exact parseSeqAux_eq_N _ _ _ (by have := hsuf.length_le; omega)

theorem parseSeqN_sup (acc : List MAtom) (rest : List Tok) :
    parseSeqN acc (Tok.sup :: rest) =
      (match parseArgN rest with
       | ArgResult.hardFail => none
       | ArgResult.noArg => none
       | ArgResult.ok arg rest' =>
         match attachSup acc arg with
         | none => none
         | some acc' => parseSeqN acc' rest') := by
  show parseSeqAux (rest.length + 1 + 1) acc (Tok.sup :: rest) = _
  simp only [parseSeqAux]
  show (match parseArgN rest with
        | ArgResult.hardFail => none
        | ArgResult.noArg => none
        | ArgResult.ok arg rest' =>
          match attachSup acc arg with
          | none => none
          | some acc' => parseSeqAux (rest.length + 1) acc' rest') = _
  cases hv : parseArgN rest with
  | hardFail => rfl
  | noArg => rfl
  | ok arg rest' =>
    simp only
    cases attachSup acc arg with
    | none => rfl
    | some acc' =>
      simp only
      have hsuf := (parse_rest_suffix (rest.length + 1)).2 _ _ _ hv
      exact parseSeqAux_eq_N _ _ _ (by have := hsuf.1.length_le; omega)

theorem parseSeqN_sub (acc : List MAtom) (rest : List Tok) :
    parseSeqN acc (Tok.sub :: rest) =
      (match parseArgN rest with
       | ArgResult.hardFail => none
       | ArgResult.noArg => none
       | ArgResult.ok arg rest' =>
         match attachSub acc arg with
         | none => none
         | some acc' => parseSeqN acc' rest') := by
  show parseSeqAux (rest.length + 1 + 1) acc (Tok.sub :: rest) = _
  simp only [parseSeqAux]
  show (match parseArgN rest with
        | ArgResult.hardFail => none
        | ArgResult.noArg => none
        | ArgResult.ok arg rest' =>
          match attachSub acc arg with
          | none => none
          | some acc' => parseSeqAux (rest.length + 1) acc' rest') = _
  cases hv : parseArgN rest with
  | hardFail => rfl
  | noArg => rfl
  | ok arg rest' =>
    simp only
    cases attachSub acc arg with
    | none => rfl
    | some acc' =>
      simp only
      have hsuf := (parse_rest_suffix (rest.length + 1)).2 _ _ _ hv
      exact parseSeqAux_eq_N _ _ _ (by have := hsuf.1.length_le; omega)

theorem parseSeqN_cs_frac (acc : List MAtom) (rest : List Tok) :
    parseSeqN acc (Tok.cs fracName :: rest) =
      (match parseArgN rest with
       | ArgResult.hardFail => none
       | ArgResult.noArg => parseSeqN (acc ++ [MAtom.unknown fracName]) rest
       | ArgResult.ok a1 r1 =>
         match parseArgN r1 with
         | ArgResult.hardFail => none
         | ArgResult.noArg => parseSeqN (acc ++ [MAtom.unknown fracName]) rest
         | ArgResult.ok a2 r2 => parseSeqN (acc ++ [MAtom.frac a1 a2]) r2) := by
  show parseSeqAux (rest.length + 1 + 1) acc (Tok.cs fracName :: rest) = _
  simp only [parseSeqAux, if_pos rfl]
  show (match parseArgN rest with
        | ArgResult.hardFail => none
        | ArgResult.noArg => parseSeqAux (rest.length + 1) (acc ++ [MAtom.unknown fracName]) rest
        | ArgResult.ok a1 r1 =>
          match parseArg (rest.length + 1) r1 with
          | ArgResult.hardFail => none
          | ArgResult.noArg => parseSeqAux (rest.length + 1) (acc ++ [MAtom.unknown fracName]) rest
          | ArgResult.ok a2 r2 => parseSeqAux (rest.length + 1) (acc ++ [MAtom.frac a1 a2]) r2) = _
  cases hv : parseArgN rest with
  | hardFail => rfl
  | noArg => rfl
  | ok a1 r1 =>
    simp only
    have hsuf := (parse_rest_suffix (rest.length + 1)).2 _ _ _ hv
    have hlt := hsuf.1.length_le
    rw [parseArg_eq_N _ _ (by omega)]
    cases hv2 : parseArgN r1 with
    | hardFail => rfl
    | noArg => rfl
    | ok a2 r2 =>
      simp only
      have hsuf2 := (parse_rest_suffix (r1.length + 1)).2 _ _ _ hv2
      exact parseSeqAux_eq_N _ _ _ (by have := hsuf2.1.length_le; omega)

theorem parseSeqN_cs_sqrt (acc : List MAtom) (rest : List Tok) :
    parseSeqN acc (Tok.cs sqrtName :: rest) =
      (match parseArgN rest with
       | ArgResult.hardFail => none
       | ArgResult.noArg => parseSeqN (acc ++ [MAtom.unknown sqrtName]) rest
       | ArgResult.ok a1 r1 => parseSeqN (acc ++ [MAtom.sqrt a1]) r1) := by
  show parseSeqAux (rest.length + 1 + 1) acc (Tok.cs sqrtName :: rest) = _
  have hne : ¬(sqrtName = fracName) := by decide
  simp only [parseSeqAux, if_neg hne, if_pos rfl]
  show (match parseArgN rest with
        | ArgResult.hardFail => none
        | ArgResult.noArg => parseSeqAux (rest.length + 1) (acc ++ [MAtom.unknown sqrtName]) rest
        | ArgResult.ok a1 r1 => parseSeqAux (rest.length + 1) (acc ++ [MAtom.sqrt a1]) r1) = _
  cases hv : parseArgN rest with
  | hardFail => rfl
  | noArg => rfl
  | ok a1 r1 =>
    simp only
    have hsuf := (parse_rest_suffix (rest.length + 1)).2 _ _ _ hv
    exact parseSeqAux_eq_N _ _ _ (by have := hsuf.1.length_le; omega)

theorem parseSeqN_cs_sym0 (acc : List MAtom) (n : List Char) (rest : List Tok)
    (hf : ¬(n = fracName)) (hs : ¬(n = sqrtName)) (ht : symbolTable0.contains n = true) :
    parseSeqN acc (Tok.cs n :: rest) = parseSeqN (acc ++ [MAtom.sym0 n]) rest := by
  show parseSeqAux (rest.length + 1 + 1) acc (Tok.cs n :: rest) = _
  simp only [parseSeqAux, if_neg hf, if_neg hs, ht, if_pos]
  rfl

theorem parseSeqN_cs_unknown (acc : List MAtom) (n : List Char) (rest : List Tok)
    (hf : ¬(n = fracName)) (hs : ¬(n = sqrtName)) (ht : ¬(symbolTable0.contains n = true)) :
    parseSeqN acc (Tok.cs n :: rest) = parseSeqN (acc ++ [MAtom.unknown n]) rest := by
  show parseSeqAux (rest.length + 1 + 1) acc (Tok.cs n :: rest) = _
  simp only [parseSeqAux, if_neg hf, if_neg hs, if_neg ht]
  rfl

theorem parseArgN_bgroup (rest : List Tok) :
    parseArgN (Tok.bgroup :: rest) =
      (match parseSeqN [] rest with
       | none => ArgResult.hardFail
       | some (body, rest', _) => ArgResult.ok body rest') := rfl

theorem attachSup_nil (arg : List MAtom) :
    attachSup [] arg = some [MAtom.scripted MAtom.placeholder (some arg) none] := rfl

theorem attachSub_nil (arg : List MAtom) :
    attachSub [] arg = some [MAtom.scripted MAtom.placeholder none (some arg)] := rfl

theorem attachSup_concat_nonscripted (acc : List MAtom) (a : MAtom) (arg : List MAtom)
    (h : isScripted a = false) :
    attachSup (acc ++ [a]) arg = some (acc ++ [MAtom.scripted a (some arg) none]) := by
  unfold attachSup
  rw [List.getLast?_concat]
  cases a <;> simp [isScripted] at h ⊢

theorem attachSub_concat_nonscripted (acc : List MAtom) (a : MAtom) (arg : List MAtom)
    (h : isScripted a = false) :
    attachSub (acc ++ [a]) arg = some (acc ++ [MAtom.scripted a none (some arg)]) := by
  unfold attachSub
  rw [List.getLast?_concat]
  cases a <;> simp [isScripted] at h ⊢

theorem attachSup_concat_scripted (acc : List MAtom) (base : MAtom) (t : Option (List MAtom))
    (arg : List MAtom) :
    attachSup (acc ++ [MAtom.scripted base none t]) arg =
      some (acc ++ [MAtom.scripted base (some arg) t]) := by
  unfold attachSup
  rw [List.getLast?_concat]
  simp only
  rw [List.dropLast_concat]

theorem attachSub_concat_scripted (acc : List MAtom) (base : MAtom) (s : Option (List MAtom))
    (arg : List MAtom) :
    attachSub (acc ++ [MAtom.scripted base s none]) arg =
      some (acc ++ [MAtom.scripted base s (some arg)]) := by
  unfold attachSub
  rw [List.getLast?_concat]
  simp only
  rw [List.dropLast_concat]

theorem wfTail_imp (ts : List MAtom) (h : wfTail ts = true) :
    wfL ts = true ∧ (∀ b, ts.head? = some b → isPhScripted b = false) := by
  cases ts with
  | nil => exact ⟨rfl, by intro b hb; cases hb⟩
  | cons a rest =>
    simp only [wfTail, Bool.and_eq_true] at h
    refine ⟨?_, ?_⟩
    · simp only [wfL, Bool.and_eq_true]
      exact ⟨h.1.1, h.2⟩
    · intro b hb
      cases hb
      have := h.1.2
      revert this
      cases isPhScripted a <;> simp

theorem sym0_name_not_command (n : List Char) (h : symbolTable0.contains n = true) :
    ¬(n = fracName) ∧ ¬(n = sqrtName) := by
  have hmem : n ∈ symbolTable0 := List.mem_of_elem_eq_true h
  fin_cases hmem <;> exact ⟨by decide, by decide⟩

theorem isPhScripted_isScripted (x : MAtom) (h : isPhScripted x = true) :
    isScripted x = true := by
  cases x <;> simp [isPhScripted, isScripted] at h ⊢

theorem scripted_base_cases (base : MAtom)
    (h : (match base with
          | MAtom.placeholder => true
          | MAtom.scripted _ _ _ => false
          | b => wfA b) = true) :
    base = MAtom.placeholder ∨ (wfA base = true ∧ isScripted base = false) := by
  cases base with
  | placeholder => exact Or.inl rfl
  | scripted b s t => exact absurd h (by simp)
  | sym c => exact Or.inr ⟨h, rfl⟩
  | sym0 n => exact Or.inr ⟨h, rfl⟩
  | frac num den => exact Or.inr ⟨h, rfl⟩
  | sqrt body => exact Or.inr ⟨h, rfl⟩
  | group body => exact Or.inr ⟨h, rfl⟩
  | unknown n => exact Or.inr ⟨h, rfl⟩

theorem round_main (k : Nat) :
    (∀ a : MAtom, sizeOf a ≤ k → ∀ (acc : List MAtom) (rest : List Tok), wfA a = true →
      (isPhScripted a = true → acc = []) →
      parseSeqN acc (serToksA a ++ rest) = parseSeqN (acc ++ [a]) rest) ∧
    (∀ ts : List MAtom, sizeOf ts ≤ k → ∀ (acc : List MAtom) (rest : List Tok),
      wfL ts = true → (∀ b, ts.head? = some b → isPhScripted b = true → acc = []) →
      parseSeqN acc (serToksL ts ++ rest) = parseSeqN (acc ++ ts) rest) := by
  induction k using Nat.strong_induction_on with
  | _ k ih =>
    have IHA : ∀ a' : MAtom, sizeOf a' < k → ∀ (acc : List MAtom) (rest : List Tok),
        wfA a' = true → (isPhScripted a' = true → acc = []) →
        parseSeqN acc (serToksA a' ++ rest) = parseSeqN (acc ++ [a']) rest :=
      fun a' hk => (ih (sizeOf a') hk).1 a' le_rfl
    have IHL : ∀ ts' : List MAtom, sizeOf ts' < k → ∀ (acc : List MAtom) (rest : List Tok),
        wfL ts' = true → (∀ b, ts'.head? = some b → isPhScripted b = true → acc = []) →
        parseSeqN acc (serToksL ts' ++ rest) = parseSeqN (acc ++ ts') rest :=
      fun ts' hk => (ih (sizeOf ts') hk).2 ts' le_rfl
    constructor
    · intro a hak acc rest hwf hph
      cases a with
      | sym c => exact parseSeqN_char acc c rest
      | sym0 n =>
        have ht : symbolTable0.contains n = true := hwf
        have hns := sym0_name_not_command n ht
        exact parseSeqN_cs_sym0 acc n rest hns.1 hns.2 ht
      | unknown n =>
        simp only [wfA, Bool.and_eq_true] at hwf
        obtain ⟨⟨⟨_, hf⟩, hs⟩, ht⟩ := hwf
        refine parseSeqN_cs_unknown acc n rest ?_ ?_ ?_
        · revert hf; cases heq : (n == fracName) <;> simp_all
        · revert hs; cases heq : (n == sqrtName) <;> simp_all
        · revert ht; cases heq : symbolTable0.contains n <;> simp
      | placeholder => simp [wfA] at hwf
      | frac num den =>
        simp only [wfA, Bool.and_eq_true] at hwf
        simp only [MAtom.frac.sizeOf_spec] at hak
        have hknum : sizeOf num < k := by omega
        have hkden : sizeOf den < k := by omega
        have h1 : parseSeqN [] (serToksL num ++ Tok.egroup ::
            (Tok.bgroup :: (serToksL den ++ Tok.egroup :: rest))) =
            some (num, Tok.bgroup :: (serToksL den ++ Tok.egroup :: rest), true) := by
          rw [IHL num hknum [] _ hwf.1 (by intro b _ _; rfl)]
          simp only [List.nil_append]
          exact parseSeqN_egroup num _
        have h2 : parseSeqN [] (serToksL den ++ Tok.egroup :: rest) =
            some (den, rest, true) := by
          rw [IHL den hkden [] _ hwf.2 (by intro b _ _; rfl)]
          simp only [List.nil_append]
          exact parseSeqN_egroup den _
        show parseSeqN acc ((Tok.cs fracName :: Tok.bgroup :: (serToksL num ++ Tok.egroup ::
          Tok.bgroup :: (serToksL den ++ [Tok.egroup]))) ++ rest) = _
        simp only [List.cons_append, List.append_assoc, List.singleton_append,
          List.nil_append]
        rw [parseSeqN_cs_frac]
        rw [parseArgN_bgroup, h1]
        simp only
        rw [parseArgN_bgroup, h2]
      | sqrt body =>
        have hwf' : wfL body = true := hwf
        simp only [MAtom.sqrt.sizeOf_spec] at hak
        have hkb : sizeOf body < k := by omega
        have h1 : parseSeqN [] (serToksL body ++ Tok.egroup :: rest) =
            some (body, rest, true) := by
          rw [IHL body hkb [] _ hwf' (by intro b _ _; rfl)]
          simp only [List.nil_append]
          exact parseSeqN_egroup body _
        show parseSeqN acc ((Tok.cs sqrtName :: Tok.bgroup ::
          (serToksL body ++ [Tok.egroup])) ++ rest) = _
        simp only [List.cons_append, List.append_assoc, List.singleton_append,
          List.nil_append]
        rw [parseSeqN_cs_sqrt]
        rw [parseArgN_bgroup, h1]
      | group body =>
        have hwf' : wfL body = true := hwf
        simp only [MAtom.group.sizeOf_spec] at hak
        have hkb : sizeOf body < k := by omega
        have h1 : parseSeqN [] (serToksL body ++ Tok.egroup :: rest) =
            some (body, rest, true) := by
          rw [IHL body hkb [] _ hwf' (by intro b _ _; rfl)]
          simp only [List.nil_append]
          exact parseSeqN_egroup body _
        show parseSeqN acc ((Tok.bgroup :: (serToksL body ++ [Tok.egroup])) ++ rest) = _
        simp only [List.cons_append, List.append_assoc, List.singleton_append,
          List.nil_append]
        rw [parseSeqN_bgroup, h1]
      | scripted base supPart subPart =>
        unfold wfA at hwf
        simp only [Bool.and_eq_true] at hwf
        obtain ⟨⟨⟨hbase, hsome⟩, hwfsup⟩, hwfsub⟩ := hwf
        simp only [MAtom.scripted.sizeOf_spec] at hak
        rcases scripted_base_cases base hbase with heq | ⟨hb, hns⟩
        · subst heq
          have hacc : acc = [] := hph rfl
          subst hacc
          rcases supPart with _ | s' <;> rcases subPart with _ | t'
          · simp at hsome
          · have hwft : wfL t' = true := by unfold wfOpt at hwfsub; exact hwfsub
            have hkt : sizeOf t' < k := by
              simp only [Option.some.sizeOf_spec] at hak; omega
            simp only [serToksA, List.nil_append, List.cons_append, List.append_assoc,
              List.singleton_append]
            rw [parseSeqN_sub, parseArgN_bgroup]
            rw [IHL t' hkt [] _ hwft (by intro b _ _; rfl)]
            simp only [List.nil_append]
            rw [parseSeqN_egroup]
            simp only [attachSub_nil]
          · have hwfs : wfL s' = true := by unfold wfOpt at hwfsup; exact hwfsup
            have hks : sizeOf s' < k := by
              simp only [Option.some.sizeOf_spec] at hak; omega
            simp only [serToksA, List.nil_append, List.append_nil, List.cons_append,
              List.append_assoc, List.singleton_append]
            rw [parseSeqN_sup, parseArgN_bgroup]
            rw [IHL s' hks [] _ hwfs (by intro b _ _; rfl)]
            simp only [List.nil_append]
            rw [parseSeqN_egroup]
            simp only [attachSup_nil]
          · have hwfs : wfL s' = true := by unfold wfOpt at hwfsup; exact hwfsup
            have hwft : wfL t' = true := by unfold wfOpt at hwfsub; exact hwfsub
            have hks : sizeOf s' < k := by
              simp only [Option.some.sizeOf_spec] at hak; omega
            have hkt : sizeOf t' < k := by
              simp only [Option.some.sizeOf_spec] at hak; omega
            simp only [serToksA, List.nil_append, List.cons_append, List.append_assoc,
              List.singleton_append]
            rw [parseSeqN_sup, parseArgN_bgroup]
            rw [IHL s' hks [] _ hwfs (by intro b _ _; rfl)]
            simp only [List.nil_append]
            rw [parseSeqN_egroup]
            simp only [attachSup_nil]
            rw [parseSeqN_sub, parseArgN_bgroup]
            rw [IHL t' hkt [] _ hwft (by intro b _ _; rfl)]
            simp only [List.nil_append]
            rw [parseSeqN_egroup]
            simp only
            have hat : attachSub [MAtom.scripted MAtom.placeholder (some s') none] t' =
                some [MAtom.scripted MAtom.placeholder (some s') (some t')] := by
              have := attachSub_concat_scripted [] MAtom.placeholder (some s') t'
              simpa using this
            rw [hat]
        · have hphbase : isPhScripted base = true → acc = [] := fun hbp =>
            absurd (isPhScripted_isScripted base hbp) (by simp [hns])
          have hkbase : sizeOf base < k := by omega
          rcases supPart with _ | s' <;> rcases subPart with _ | t'
          · simp at hsome
          · have hwft : wfL t' = true := by unfold wfOpt at hwfsub; exact hwfsub
            have hkt : sizeOf t' < k := by
              simp only [Option.some.sizeOf_spec] at hak; omega
            simp only [serToksA, List.nil_append, List.cons_append, List.append_assoc,
              List.singleton_append]
            rw [IHA base hkbase acc _ hb hphbase]
            rw [parseSeqN_sub, parseArgN_bgroup]
            rw [IHL t' hkt [] _ hwft (by intro b _ _; rfl)]
            simp only [List.nil_append]
            rw [parseSeqN_egroup]
            simp only
            rw [attachSub_concat_nonscripted acc base t' hns]
          · have hwfs : wfL s' = true := by unfold wfOpt at hwfsup; exact hwfsup
            have hks : sizeOf s' < k := by
              simp only [Option.some.sizeOf_spec] at hak; omega
            simp only [serToksA, List.append_nil, List.cons_append, List.append_assoc,
              List.singleton_append]
            rw [IHA base hkbase acc _ hb hphbase]
            rw [parseSeqN_sup, parseArgN_bgroup]
            rw [IHL s' hks [] _ hwfs (by intro b _ _; rfl)]
            simp only [List.nil_append]
            rw [parseSeqN_egroup]
            simp only
            rw [attachSup_concat_nonscripted acc base s' hns]
          · have hwfs : wfL s' = true := by unfold wfOpt at hwfsup; exact hwfsup
            have hwft : wfL t' = true := by unfold wfOpt at hwfsub; exact hwfsub
            have hks : sizeOf s' < k := by
              simp only [Option.some.sizeOf_spec] at hak; omega
            have hkt : sizeOf t' < k := by
              simp only [Option.some.sizeOf_spec] at hak; omega
            simp only [serToksA, List.cons_append, List.append_assoc, List.singleton_append]
            rw [IHA base hkbase acc _ hb hphbase]
            rw [parseSeqN_sup, parseArgN_bgroup]
            rw [IHL s' hks [] _ hwfs (by intro b _ _; rfl)]
            simp only [List.nil_append]
            rw [parseSeqN_egroup]
            simp only
            rw [attachSup_concat_nonscripted acc base s' hns]
            simp only
            rw [parseSeqN_sub, parseArgN_bgroup]
            rw [IHL t' hkt [] _ hwft (by intro b _ _; rfl)]
            simp only [List.nil_append]
            rw [parseSeqN_egroup]
            simp only
            rw [attachSub_concat_scripted acc base (some s') t']
    · intro ts hts acc rest hwf hph
      cases ts with
      | nil => simp [serToksL]
      | cons a ts' =>
        simp only [wfL, Bool.and_eq_true] at hwf
        simp only [List.cons.sizeOf_spec] at hts
        have htail := wfTail_imp ts' hwf.2
        have hka : sizeOf a < k := by omega
        have hkts : sizeOf ts' < k := by omega
        show parseSeqN acc ((serToksA a ++ serToksL ts') ++ rest) = _
        rw [List.append_assoc]
        rw [IHA a hka acc _ hwf.1 (hph a rfl)]
        rw [IHL ts' hkts (acc ++ [a]) rest htail.1 ?_]
        · simp
        · intro b hb hpb
          rw [htail.2 b hb] at hpb
          cases hpb

theorem roundA (a : MAtom) (acc : List MAtom) (rest : List Tok) (hwf : wfA a = true)
    (hph : isPhScripted a = true → acc = []) :
    parseSeqN acc (serToksA a ++ rest) = parseSeqN (acc ++ [a]) rest :=
  (round_main (sizeOf a)).1 a le_rfl acc rest hwf hph

theorem roundL (ts : List MAtom) (acc : List MAtom) (rest : List Tok) (hwf : wfL ts = true)
    (hph : ∀ b, ts.head? = some b → isPhScripted b = true → acc = []) :
    parseSeqN acc (serToksL ts ++ rest) = parseSeqN (acc ++ ts) rest :=
  (round_main (sizeOf ts)).2 ts le_rfl acc rest hwf hph

theorem parseToks_serToksL (ts : List MAtom) (hwf : wfL ts = true) :
    parseToks (serToksL ts) = some ts := by
  unfold parseToks
  show (match parseSeqN [] (serToksL ts) with
        | some (atoms, [], false) => some atoms
        | _ => none) = some ts
  have h := roundL ts [] [] hwf (by intro b _ _; rfl)
  simp only [List.append_nil, List.nil_append] at h
  rw [h]
  rfl

/-- A token whose character payload is plain (the only token well-formedness
needed of every lexer output). -/
def wfTokChar : Tok → Bool
  | Tok.char c => isPlainChar c
  | _ => true

/-- The token well-formedness that makes rendering invertible. -/
def wfTok : Tok → Bool
  | Tok.char c => isPlainChar c
  | Tok.cs n => goodCsName n
  | _ => true

theorem takeWhile_alpha_append (ds : List Char) (r : List Char)
    (h : ds.all Char.isAlpha = true) :
    (ds ++ ' ' :: r).takeWhile Char.isAlpha = ds ∧
    (ds ++ ' ' :: r).dropWhile Char.isAlpha = ' ' :: r := by
  induction ds with
  | nil =>
    constructor
    · simp [List.takeWhile]
    · simp [List.dropWhile]
  | cons d ds ih =>
    simp only [List.all_cons, Bool.and_eq_true] at h
    obtain ⟨hd, hds⟩ := h
    have := ih hds
    constructor
    · simp only [List.cons_append, List.takeWhile_cons, hd, if_pos]
      rw [this.1]
    · simp only [List.cons_append, List.dropWhile_cons, hd, if_pos]
      exact this.2

theorem lexAux_plain_char (f : Nat) (c : Char) (r : List Char) (h : isPlainChar c = true) :
    lexAux (f + 1) (c :: r) = Tok.char c :: lexAux f r := by
  simp only [isPlainChar, Bool.and_eq_true, Bool.not_eq_true'] at h
  obtain ⟨hs, hw⟩ := h
  simp only [isSpecialChar, Bool.or_eq_false_iff] at hs
  obtain ⟨⟨⟨⟨⟨h1, h2⟩, h3⟩, h4⟩, h5⟩, h6⟩ := hs
  simp only [lexAux, h1, h2, h3, h4, h5, h6, hw, Bool.false_eq_true, if_false]

theorem lexAux_backslash_alpha (f : Nat) (d : Char) (rest' : List Char)
    (hd : d.isAlpha = true) :
    lexAux (f + 1) ('\\' :: d :: rest') =
      Tok.cs (d :: rest'.takeWhile Char.isAlpha) :: lexAux f (rest'.dropWhile Char.isAlpha) := by
  simp [lexAux, hd]

theorem lexAux_backslash_nonalpha (f : Nat) (d : Char) (rest' : List Char)
    (hd : d.isAlpha = false) :
    lexAux (f + 1) ('\\' :: d :: rest') = Tok.cs [d] :: lexAux f rest' := by
  simp [lexAux, hd]

theorem lexAux_space (f : Nat) (r : List Char) :
    lexAux (f + 1) (' ' :: r) = lexAux f r := by
  simp [lexAux]

theorem lexAux_bgroup (f : Nat) (r : List Char) :
    lexAux (f + 1) ('\x7b' :: r) = Tok.bgroup :: lexAux f r := by
  simp [lexAux]

theorem lexAux_egroup (f : Nat) (r : List Char) :
    lexAux (f + 1) ('\x7d' :: r) = Tok.egroup :: lexAux f r := by
  simp [lexAux]

theorem lexAux_sup (f : Nat) (r : List Char) :
    lexAux (f + 1) ('^' :: r) = Tok.sup :: lexAux f r := by
  simp [lexAux]

theorem lexAux_sub (f : Nat) (r : List Char) :
    lexAux (f + 1) ('_' :: r) = Tok.sub :: lexAux f r := by
  simp [lexAux]

theorem lexAux_align (f : Nat) (r : List Char) :
    lexAux (f + 1) ('&' :: r) = Tok.align :: lexAux f r := by
  simp [lexAux]

theorem lexAux_renderToks (toks : List Tok) :
    ∀ f, toks.all wfTok = true → (renderToks toks).length + 1 ≤ f →
    lexAux f (renderToks toks) = toks := by
  induction toks with
  | nil =>
    intro f _ hf
    match f with
    | f' + 1 => rfl
  | cons t rest ih =>
    intro f hwf hf
    simp only [List.all_cons, Bool.and_eq_true] at hwf
    obtain ⟨ht, hrest⟩ := hwf
    have hr : renderToks (t :: rest) = renderTok t ++ renderToks rest := by
      simp [renderToks]
    rw [hr] at hf ⊢
    match t with
    | Tok.char c =>
      have hc : isPlainChar c = true := ht
      match f, hf with
      | f' + 1, hf =>
        show lexAux (f' + 1) ([c] ++ renderToks rest) = Tok.char c :: rest
        simp only [List.singleton_append]
        rw [lexAux_plain_char f' c _ hc]
        rw [ih f' hrest (by simp [renderTok] at hf; omega)]
    | Tok.cs n =>
      have hn : goodCsName n = true := ht
      simp only [goodCsName, Bool.or_eq_true, Bool.and_eq_true] at hn
      match f, hf with
      | f' + 1, hf =>
        rcases hn with ⟨hne, halpha⟩ | hsingle
        · -- all-letter name, rendered with a trailing space
          have hia : isAlphaName n = true := by
            simp [isAlphaName, hne, halpha]
          match n, hne, halpha with
          | d :: ds, _, halpha =>
            simp only [List.all_cons, Bool.and_eq_true] at halpha
            simp only [renderTok, hia, if_pos] at hf ⊢
            simp only [List.cons_append, List.append_assoc, List.singleton_append,
              List.nil_append] at hf ⊢
            rw [lexAux_backslash_alpha f' d _ halpha.1]
            have htw := takeWhile_alpha_append ds (renderToks rest) halpha.2
            rw [htw.1, htw.2]
            match f', hf with
            | f'' + 1, hf =>
              rw [lexAux_space]
              rw [ih f'' hrest (by simp at hf; omega)]
        · -- single non-letter name
          match n, hsingle with
          | [c], hsingle =>
            have hca : c.isAlpha = false := by simpa using hsingle
            have hia : isAlphaName [c] = false := by
              simp [isAlphaName, hca]
            simp only [renderTok, hia, Bool.false_eq_true, if_false, List.append_nil,
              List.cons_append, List.singleton_append, List.nil_append] at hf ⊢
            rw [lexAux_backslash_nonalpha f' c _ hca]
            rw [ih f' hrest (by simp at hf; omega)]
    | Tok.bgroup =>
      match f, hf with
      | f' + 1, hf =>
        show lexAux (f' + 1) ('\x7b' :: renderToks rest) = _
        rw [lexAux_bgroup]
        rw [ih f' hrest (by simp [renderTok] at hf; omega)]
    | Tok.egroup =>
      match f, hf with
      | f' + 1, hf =>
        show lexAux (f' + 1) ('\x7d' :: renderToks rest) = _
        rw [lexAux_egroup]
        rw [ih f' hrest (by simp [renderTok] at hf; omega)]
    | Tok.sup =>
      match f, hf with
      | f' + 1, hf =>
        show lexAux (f' + 1) ('^' :: renderToks rest) = _
        rw [lexAux_sup]
        rw [ih f' hrest (by simp [renderTok] at hf; omega)]
    | Tok.sub =>
      match f, hf with
      | f' + 1, hf =>
        show lexAux (f' + 1) ('_' :: renderToks rest) = _
        rw [lexAux_sub]
        rw [ih f' hrest (by simp [renderTok] at hf; omega)]
    | Tok.align =>
      match f, hf with
      | f' + 1, hf =>
        show lexAux (f' + 1) ('&' :: renderToks rest) = _
        rw [lexAux_align]
        rw [ih f' hrest (by simp [renderTok] at hf; omega)]

theorem tokenize_renderToks (toks : List Tok) (hwf : toks.all wfTok = true) :
    tokenize (renderToks toks) = toks :=
  lexAux_renderToks toks _ hwf le_rfl

theorem symbolTable0_goodCsName (n : List Char) (h : symbolTable0.contains n = true) :
    goodCsName n = true := by
  have hmem : n ∈ symbolTable0 := List.mem_of_elem_eq_true h
  fin_cases hmem <;> decide


theorem all_wfTok_append (l₁ l₂ : List Tok) (h₁ : l₁.all wfTok = true)
    (h₂ : l₂.all wfTok = true) : (l₁ ++ l₂).all wfTok = true := by
  simp only [List.all_append, Bool.and_eq_true]
  exact ⟨h₁, h₂⟩

theorem all_wfTok_cons (t : Tok) (l : List Tok) (ht : wfTok t = true)
    (hl : l.all wfTok = true) : (t :: l).all wfTok = true := by
  simp only [List.all_cons, Bool.and_eq_true]
  exact ⟨ht, hl⟩

theorem serToks_wf (k : Nat) :
    (∀ a : MAtom, sizeOf a ≤ k → wfA a = true → (serToksA a).all wfTok = true) ∧
    (∀ ts : List MAtom, sizeOf ts ≤ k → wfL ts = true →
      (serToksL ts).all wfTok = true) := by
  induction k using Nat.strong_induction_on with
  | _ k ih =>
    have IHA : ∀ a' : MAtom, sizeOf a' < k → wfA a' = true →
        (serToksA a').all wfTok = true :=
      fun a' hk => (ih (sizeOf a') hk).1 a' le_rfl
    have IHL : ∀ ts' : List MAtom, sizeOf ts' < k → wfL ts' = true →
        (serToksL ts').all wfTok = true :=
      fun ts' hk => (ih (sizeOf ts') hk).2 ts' le_rfl
    constructor
    · intro a hak hwf
      cases a with
      | sym c =>
        exact all_wfTok_cons _ _ hwf rfl
      | sym0 n =>
        exact all_wfTok_cons _ _ (symbolTable0_goodCsName n hwf) rfl
      | unknown n =>
        simp only [wfA, Bool.and_eq_true] at hwf
        exact all_wfTok_cons _ _ hwf.1.1.1 rfl
      | placeholder => simp [wfA] at hwf
      | frac num den =>
        simp only [wfA, Bool.and_eq_true] at hwf
        simp only [MAtom.frac.sizeOf_spec] at hak
        have h1 := IHL num (by omega) hwf.1
        have h2 := IHL den (by omega) hwf.2
        simp only [serToksA]
        exact all_wfTok_cons _ _ (by decide) (all_wfTok_cons _ _ (by decide)
          (all_wfTok_append _ _ h1 (all_wfTok_cons _ _ (by decide)
            (all_wfTok_cons _ _ (by decide) (all_wfTok_append _ _ h2 (by decide))))))
      | sqrt body =>
        have hwf' : wfL body = true := hwf
        simp only [MAtom.sqrt.sizeOf_spec] at hak
        have h1 := IHL body (by omega) hwf'
        simp only [serToksA]
        exact all_wfTok_cons _ _ (by decide) (all_wfTok_cons _ _ (by decide)
          (all_wfTok_append _ _ h1 (by decide)))
      | group body =>
        have hwf' : wfL body = true := hwf
        simp only [MAtom.group.sizeOf_spec] at hak
        have h1 := IHL body (by omega) hwf'
        simp only [serToksA]
        exact all_wfTok_cons _ _ (by decide) (all_wfTok_append _ _ h1 (by decide))
      | scripted base supPart subPart =>
        unfold wfA at hwf
        simp only [Bool.and_eq_true] at hwf
        obtain ⟨⟨⟨hbase, hsome⟩, hwfsup⟩, hwfsub⟩ := hwf
        simp only [MAtom.scripted.sizeOf_spec] at hak
        have hbtoks : (serToksA base).all wfTok = true := by
          rcases scripted_base_cases base hbase with heq | ⟨hb, _⟩
          · subst heq; rfl
          · exact IHA base (by omega) hb
        rcases supPart with _ | s' <;> rcases subPart with _ | t'
        · exact absurd hsome (by decide)
        · have hwft : wfL t' = true := by unfold wfOpt at hwfsub; exact hwfsub
          have hkt : sizeOf t' < k := by
            simp only [Option.some.sizeOf_spec] at hak; omega
          have h2 := IHL t' hkt hwft
          simp only [serToksA]
          exact all_wfTok_append _ _ (all_wfTok_append _ _ hbtoks rfl)
            (all_wfTok_cons _ _ (by decide) (all_wfTok_cons _ _ (by decide)
              (all_wfTok_append _ _ h2 (by decide))))
        · have hwfs : wfL s' = true := by unfold wfOpt at hwfsup; exact hwfsup
          have hks : sizeOf s' < k := by
            simp only [Option.some.sizeOf_spec] at hak; omega
          have h1 := IHL s' hks hwfs
          simp only [serToksA]
          exact all_wfTok_append _ _ (all_wfTok_append _ _ hbtoks
            (all_wfTok_cons _ _ (by decide) (all_wfTok_cons _ _ (by decide)
              (all_wfTok_append _ _ h1 (by decide))))) rfl
        · have hwfs : wfL s' = true := by unfold wfOpt at hwfsup; exact hwfsup
          have hwft : wfL t' = true := by unfold wfOpt at hwfsub; exact hwfsub
          have hks : sizeOf s' < k := by
            simp only [Option.some.sizeOf_spec] at hak; omega
          have hkt : sizeOf t' < k := by
            simp only [Option.some.sizeOf_spec] at hak; omega
          have h1 := IHL s' hks hwfs
          have h2 := IHL t' hkt hwft
          simp only [serToksA]
          exact all_wfTok_append _ _ (all_wfTok_append _ _ hbtoks
            (all_wfTok_cons _ _ (by decide) (all_wfTok_cons _ _ (by decide)
              (all_wfTok_append _ _ h1 (by decide)))))
            (all_wfTok_cons _ _ (by decide) (all_wfTok_cons _ _ (by decide)
              (all_wfTok_append _ _ h2 (by decide))))
    · intro ts hts hwf
      cases ts with
      | nil => rfl
      | cons a ts' =>
        simp only [wfL, Bool.and_eq_true] at hwf
        simp only [List.cons.sizeOf_spec] at hts
        have htail := wfTail_imp ts' hwf.2
        simp only [serToksL]
        exact all_wfTok_append _ _ (IHA a (by omega) hwf.1)
          (IHL ts' (by omega) htail.1)

theorem all_wfTokChar_cons (t : Tok) (l : List Tok) (ht : wfTokChar t = true)
    (hl : l.all wfTokChar = true) : (t :: l).all wfTokChar = true := by
  simp only [List.all_cons, Bool.and_eq_true]
  exact ⟨ht, hl⟩

theorem lexAux_wfTokChar (fuel : Nat) :
    ∀ l : List Char, (lexAux fuel l).all wfTokChar = true := by
  induction fuel with
  | zero => intro l; rfl
  | succ f ih =>
    intro l
    cases l with
    | nil => rfl
    | cons c rest =>
      cases hbs : c == '\\' with
      | true =>
        have hc : c = '\\' := by simpa using hbs
        subst hc
        cases rest with
        | nil => simp [lexAux, wfTokChar]
        | cons d rest' =>
          cases hd : d.isAlpha with
          | true =>
            rw [lexAux_backslash_alpha f d rest' hd]
            exact all_wfTokChar_cons _ _ rfl (ih _)
          | false =>
            rw [lexAux_backslash_nonalpha f d rest' hd]
            exact all_wfTokChar_cons _ _ rfl (ih _)
      | false =>
        cases hbg : c == '\x7b' with
        | true =>
          have hc : c = '\x7b' := by simpa using hbg
          subst hc
          rw [lexAux_bgroup]
          exact all_wfTokChar_cons _ _ rfl (ih _)
        | false =>
          cases heg : c == '\x7d' with
          | true =>
            have hc : c = '\x7d' := by simpa using heg
            subst hc
            rw [lexAux_egroup]
            exact all_wfTokChar_cons _ _ rfl (ih _)
          | false =>
            cases hsp : c == '^' with
            | true =>
              have hc : c = '^' := by simpa using hsp
              subst hc
              rw [lexAux_sup]
              exact all_wfTokChar_cons _ _ rfl (ih _)
            | false =>
              cases hsb : c == '_' with
              | true =>
                have hc : c = '_' := by simpa using hsb
                subst hc
                rw [lexAux_sub]
                exact all_wfTokChar_cons _ _ rfl (ih _)
              | false =>
                cases hal : c == '&' with
                | true =>
                  have hc : c = '&' := by simpa using hal
                  subst hc
                  rw [lexAux_align]
                  exact all_wfTokChar_cons _ _ rfl (ih _)
                | false =>
                  cases hws : c.isWhitespace with
                  | true =>
                    simp only [lexAux, hbs, hbg, heg, hsp, hsb, hal, hws,
                      Bool.false_eq_true, if_false, if_true]
                    exact ih rest
                  | false =>
                    have hp : isPlainChar c = true := by
                      simp only [isPlainChar, isSpecialChar, hbs, hbg, heg,
                        hsp, hsb, hal, hws]
                      rfl
                    rw [lexAux_plain_char f c rest hp]
                    exact all_wfTokChar_cons _ _ hp (ih _)

theorem tokenize_wfTokChar (l : List Char) : (tokenize l).all wfTokChar = true :=
  lexAux_wfTokChar (l.length + 1) l

theorem noUnknownL_append (l₁ l₂ : List MAtom) :
    noUnknownL (l₁ ++ l₂) = (noUnknownL l₁ && noUnknownL l₂) := by
  induction l₁ with
  | nil => simp [noUnknownL]
  | cons a r ih => simp [noUnknownL, ih, Bool.and_assoc]

theorem wfTail_append (l₁ l₂ : List MAtom) :
    wfTail (l₁ ++ l₂) = (wfTail l₁ && wfTail l₂) := by
  induction l₁ with
  | nil => simp [wfTail]
  | cons a r ih => simp [wfTail, ih, Bool.and_assoc]

theorem wfL_append_tail (l₁ l₂ : List MAtom) (h₁ : wfL l₁ = true)
    (h₂ : wfTail l₂ = true) : wfL (l₁ ++ l₂) = true := by
  cases l₁ with
  | nil => simpa using (wfTail_imp l₂ h₂).1
  | cons a r =>
    simp only [wfL, Bool.and_eq_true] at h₁
    simp only [List.cons_append, wfL, wfTail_append, Bool.and_eq_true]
    exact ⟨h₁.1, h₁.2, h₂⟩

theorem wfTail_last (l' : List MAtom) (x : MAtom) (h : wfTail (l' ++ [x]) = true) :
    wfA x = true ∧ isPhScripted x = false := by
  induction l' with
  | nil =>
    simp only [List.nil_append, wfTail, Bool.and_eq_true, Bool.not_eq_true'] at h
    exact ⟨h.1.1, h.1.2⟩
  | cons a r ih =>
    simp only [List.cons_append, wfTail, Bool.and_eq_true] at h
    exact ih h.2

theorem wfL_last (l' : List MAtom) (x : MAtom) (h : wfL (l' ++ [x]) = true) :
    wfA x = true := by
  cases l' with
  | nil =>
    simp only [List.nil_append, wfL, Bool.and_eq_true] at h
    exact h.1
  | cons a r =>
    simp only [List.cons_append, wfL, Bool.and_eq_true] at h
    exact (wfTail_last r x h.2).1

theorem wfTail_replace_last (l' : List MAtom) (x y : MAtom)
    (h : wfTail (l' ++ [x]) = true) (hy : wfA y = true)
    (hph : isPhScripted y = true → isPhScripted x = true) :
    wfTail (l' ++ [y]) = true := by
  induction l' with
  | nil =>
    simp only [List.nil_append, wfTail, Bool.and_eq_true, Bool.not_eq_true'] at h ⊢
    refine ⟨⟨hy, ?_⟩, trivial⟩
    cases hphy : isPhScripted y with
    | false => rfl
    | true => rw [hph hphy] at h; exact absurd h.1.2 (by simp)
  | cons a r ih =>
    simp only [List.cons_append, wfTail, Bool.and_eq_true] at h ⊢
    exact ⟨h.1, ih h.2⟩

theorem wfL_replace_last (l' : List MAtom) (x y : MAtom)
    (h : wfL (l' ++ [x]) = true) (hy : wfA y = true)
    (hph : isPhScripted y = true → isPhScripted x = true) :
    wfL (l' ++ [y]) = true := by
  cases l' with
  | nil =>
    simp only [List.nil_append, wfL, Bool.and_eq_true] at h ⊢
    exact ⟨hy, rfl⟩
  | cons a r =>
    simp only [List.cons_append, wfL, Bool.and_eq_true] at h ⊢
    exact ⟨h.1, wfTail_replace_last r x y h.2 hy hph⟩

theorem all_wfTokChar_suffix (l₁ l₂ : List Tok) (h : l₁ <:+ l₂)
    (ha : l₂.all wfTokChar = true) : l₁.all wfTokChar = true := by
  rw [List.all_eq_true] at ha ⊢
  exact fun x hx => ha x (h.subset hx)

theorem accInv_snoc (acc : List MAtom) (a : MAtom)
    (hacc : noUnknownL acc = true → wfL acc = true)
    (ha : noUnknownA a = true → wfA a = true)
    (hns : isScripted a = false) :
    noUnknownL (acc ++ [a]) = true → wfL (acc ++ [a]) = true := by
  intro h
  rw [noUnknownL_append] at h
  simp only [Bool.and_eq_true] at h
  have hna : noUnknownA a = true := by
    have h2 := h.2
    simp only [noUnknownL, Bool.and_eq_true] at h2
    exact h2.1
  have hwa := ha hna
  have hph : isPhScripted a = false := by
    cases hp : isPhScripted a with
    | false => rfl
    | true => rw [isPhScripted_isScripted a hp] at hns; exact absurd hns (by simp)
  refine wfL_append_tail acc [a] (hacc h.1) ?_
  simp only [wfTail, Bool.and_eq_true, Bool.not_eq_true']
  exact ⟨⟨hwa, hph⟩, trivial⟩


theorem band_left {a b : Bool} (h : (a && b) = true) : a = true := by
  simp only [Bool.and_eq_true] at h
  exact h.1

theorem band_right {a b : Bool} (h : (a && b) = true) : b = true := by
  simp only [Bool.and_eq_true] at h
  exact h.2

theorem band_intro {a b : Bool} (ha : a = true) (hb : b = true) : (a && b) = true := by
  rw [ha, hb]
  rfl

theorem noUnknownL_concat (l : List MAtom) (a : MAtom) :
    noUnknownL (l ++ [a]) = (noUnknownL l && noUnknownA a) := by
  rw [noUnknownL_append]
  simp [noUnknownL]

/-- The base-position well-formedness check of a scripted atom (the inline
match of `wfA` on the base, given a name so that equations stay stable). -/
def wfBase : MAtom → Bool
  | MAtom.placeholder => true
  | MAtom.scripted _ _ _ => false
  | b => wfA b

/-- Is the atom the empty placeholder? -/
def isPh : MAtom → Bool
  | MAtom.placeholder => true
  | _ => false

theorem wfA_scripted (base : MAtom) (s t : Option (List MAtom)) :
    wfA (MAtom.scripted base s t) =
      (wfBase base && (s.isSome || t.isSome) && wfOpt s && wfOpt t) := by
  cases base <;> rfl

theorem isPhScripted_scripted (base : MAtom) (s t : Option (List MAtom)) :
    isPhScripted (MAtom.scripted base s t) = isPh base := by
  cases base <;> rfl

theorem wfBase_of_wf (x : MAtom) (hns : isScripted x = false) (hwx : wfA x = true) :
    wfBase x = true := by
  cases x <;> first | rfl | exact hwx | simp [isScripted] at hns

theorem isPh_eq_placeholder (x : MAtom) (h : isPh x = true) : x = MAtom.placeholder := by
  cases x <;> first | rfl | simp [isPh] at h

theorem scripted_new_inv (l' : List MAtom) (x : MAtom) (arg : List MAtom)
    (hacc : noUnknownL (l' ++ [x]) = true → wfL (l' ++ [x]) = true)
    (harg : noUnknownL arg = true → wfL arg = true)
    (hns : isScripted x = false)
    (y : MAtom)
    (hy : y = MAtom.scripted x (some arg) none ∨ y = MAtom.scripted x none (some arg)) :
    noUnknownL (l' ++ [y]) = true → wfL (l' ++ [y]) = true := by
  intro hnu
  rcases hy with rfl | rfl
  · rw [noUnknownL_concat] at hnu
    have hl' := band_left hnu
    have hyA : (noUnknownA x && noUnknownOpt (some arg) && noUnknownOpt none) = true :=
      band_right hnu
    have hxU := band_left (band_left hyA)
    have hargU : noUnknownL arg = true := band_right (band_left hyA)
    have hwacc : wfL (l' ++ [x]) = true := by
      apply hacc
      rw [noUnknownL_concat]
      exact band_intro hl' hxU
    have hwx := wfL_last l' x hwacc
    have hwy : wfA (MAtom.scripted x (some arg) none) = true := by
      rw [wfA_scripted]
      exact band_intro (band_intro (band_intro (wfBase_of_wf x hns hwx) rfl)
        (harg hargU)) rfl
    refine wfL_replace_last l' x _ hwacc hwy ?_
    intro hp
    rw [isPhScripted_scripted] at hp
    rw [isPh_eq_placeholder x hp] at hwx
    exact absurd hwx (by simp [wfA])
  · rw [noUnknownL_concat] at hnu
    have hl' := band_left hnu
    have hyA : (noUnknownA x && noUnknownOpt none && noUnknownOpt (some arg)) = true :=
      band_right hnu
    have hxU := band_left (band_left hyA)
    have hargU : noUnknownL arg = true := band_right hyA
    have hwacc : wfL (l' ++ [x]) = true := by
      apply hacc
      rw [noUnknownL_concat]
      exact band_intro hl' hxU
    have hwx := wfL_last l' x hwacc
    have hwy : wfA (MAtom.scripted x none (some arg)) = true := by
      rw [wfA_scripted]
      exact band_intro (band_intro (band_intro (wfBase_of_wf x hns hwx) rfl) rfl)
        (harg hargU)
    refine wfL_replace_last l' x _ hwacc hwy ?_
    intro hp
    rw [isPhScripted_scripted] at hp
    rw [isPh_eq_placeholder x hp] at hwx
    exact absurd hwx (by simp [wfA])

theorem attachSup_inv (acc arg acc' : List MAtom)
    (hacc : noUnknownL acc = true → wfL acc = true)
    (harg : noUnknownL arg = true → wfL arg = true)
    (h : attachSup acc arg = some acc') :
    noUnknownL acc' = true → wfL acc' = true := by
  rcases List.eq_nil_or_concat acc with rfl | ⟨l', x, rfl⟩
  · simp only [attachSup, List.getLast?_nil, Option.some.injEq] at h
    subst h
    intro hnu
    have hyA : (noUnknownA MAtom.placeholder && noUnknownOpt (some arg) &&
        noUnknownOpt none) = true := band_left hnu
    have hargU : noUnknownL arg = true := band_right (band_left hyA)
    have hwy : wfA (MAtom.scripted MAtom.placeholder (some arg) none) = true := by
      rw [wfA_scripted]
      exact band_intro (band_intro (band_intro rfl rfl) (harg hargU)) rfl
    exact band_intro hwy rfl
  · simp only [List.concat_eq_append] at hacc h
    rw [attachSup, List.getLast?_concat] at h
    cases x with
    | scripted base s t =>
      cases s with
      | some s0 => exact absurd h (by simp)
      | none =>
        simp only [List.dropLast_concat, Option.some.injEq] at h
        subst h
        intro hnu
        rw [noUnknownL_concat] at hnu
        have hl' := band_left hnu
        have hyA : (noUnknownA base && noUnknownOpt (some arg) &&
            noUnknownOpt t) = true := band_right hnu
        have hbU := band_left (band_left hyA)
        have hargU : noUnknownL arg = true := band_right (band_left hyA)
        have htU := band_right hyA
        have hwacc : wfL (l' ++ [MAtom.scripted base none t]) = true := by
          apply hacc
          rw [noUnknownL_concat]
          exact band_intro hl' (band_intro (band_intro hbU rfl) htU)
        have hwx := wfL_last l' _ hwacc
        rw [wfA_scripted] at hwx
        have hbm := band_left (band_left (band_left hwx))
        have hwt := band_right hwx
        have hwy : wfA (MAtom.scripted base (some arg) t) = true := by
          rw [wfA_scripted]
          exact band_intro (band_intro (band_intro hbm rfl) (harg hargU)) hwt
        refine wfL_replace_last l' _ _ hwacc hwy ?_
        intro hp
        rw [isPhScripted_scripted] at hp ⊢
        exact hp
    | sym c =>
      simp only [List.dropLast_concat, Option.some.injEq] at h
      subst h
      exact scripted_new_inv l' (MAtom.sym c) arg hacc harg rfl _ (Or.inl rfl)
    | sym0 n =>
      simp only [List.dropLast_concat, Option.some.injEq] at h
      subst h
      exact scripted_new_inv l' (MAtom.sym0 n) arg hacc harg rfl _ (Or.inl rfl)
    | frac num den =>
      simp only [List.dropLast_concat, Option.some.injEq] at h
      subst h
      exact scripted_new_inv l' (MAtom.frac num den) arg hacc harg rfl _ (Or.inl rfl)
    | sqrt body =>
      simp only [List.dropLast_concat, Option.some.injEq] at h
      subst h
      exact scripted_new_inv l' (MAtom.sqrt body) arg hacc harg rfl _ (Or.inl rfl)
    | group body =>
      simp only [List.dropLast_concat, Option.some.injEq] at h
      subst h
      exact scripted_new_inv l' (MAtom.group body) arg hacc harg rfl _ (Or.inl rfl)
    | placeholder =>
      simp only [List.dropLast_concat, Option.some.injEq] at h
      subst h
      intro hnu
      rw [noUnknownL_concat] at hnu
      have hl' := band_left hnu
      have hwacc : wfL (l' ++ [MAtom.placeholder]) = true := by
        apply hacc
        rw [noUnknownL_concat]
        exact band_intro hl' rfl
      have hwx := wfL_last l' _ hwacc
      exact absurd hwx (by simp [wfA])
    | unknown n =>
      simp only [List.dropLast_concat, Option.some.injEq] at h
      subst h
      intro hnu
      rw [noUnknownL_concat] at hnu
      have hyA : (noUnknownA (MAtom.unknown n) && noUnknownOpt (some arg) &&
          noUnknownOpt none) = true := band_right hnu
      have hbU := band_left (band_left hyA)
      exact absurd hbU (by simp [noUnknownA])

theorem attachSub_inv (acc arg acc' : List MAtom)
    (hacc : noUnknownL acc = true → wfL acc = true)
    (harg : noUnknownL arg = true → wfL arg = true)
    (h : attachSub acc arg = some acc') :
    noUnknownL acc' = true → wfL acc' = true := by
  rcases List.eq_nil_or_concat acc with rfl | ⟨l', x, rfl⟩
  · simp only [attachSub, List.getLast?_nil, Option.some.injEq] at h
    subst h
    intro hnu
    have hyA : (noUnknownA MAtom.placeholder && noUnknownOpt none &&
        noUnknownOpt (some arg)) = true := band_left hnu
    have hargU : noUnknownL arg = true := band_right hyA
    have hwy : wfA (MAtom.scripted MAtom.placeholder none (some arg)) = true := by
      rw [wfA_scripted]
      exact band_intro (band_intro (band_intro rfl rfl) rfl) (harg hargU)
    exact band_intro hwy rfl
  · simp only [List.concat_eq_append] at hacc h
    rw [attachSub, List.getLast?_concat] at h
    cases x with
    | scripted base s t =>
      cases t with
      | some t0 => exact absurd h (by simp)
      | none =>
        simp only [List.dropLast_concat, Option.some.injEq] at h
        subst h
        intro hnu
        rw [noUnknownL_concat] at hnu
        have hl' := band_left hnu
        have hyA : (noUnknownA base && noUnknownOpt s &&
            noUnknownOpt (some arg)) = true := band_right hnu
        have hbU := band_left (band_left hyA)
        have hsU := band_right (band_left hyA)
        have hargU : noUnknownL arg = true := band_right hyA
        have hwacc : wfL (l' ++ [MAtom.scripted base s none]) = true := by
          apply hacc
          rw [noUnknownL_concat]
          exact band_intro hl' (band_intro (band_intro hbU hsU) rfl)
        have hwx := wfL_last l' _ hwacc
        rw [wfA_scripted] at hwx
        have hbm := band_left (band_left (band_left hwx))
        have hws := band_right (band_left hwx)
        have hwy : wfA (MAtom.scripted base s (some arg)) = true := by
          rw [wfA_scripted]
          exact band_intro (band_intro (band_intro hbm (by simp)) hws) (harg hargU)
        refine wfL_replace_last l' _ _ hwacc hwy ?_
        intro hp
        rw [isPhScripted_scripted] at hp ⊢
        exact hp
    | sym c =>
      simp only [List.dropLast_concat, Option.some.injEq] at h
      subst h
      exact scripted_new_inv l' (MAtom.sym c) arg hacc harg rfl _ (Or.inr rfl)
    | sym0 n =>
      simp only [List.dropLast_concat, Option.some.injEq] at h
      subst h
      exact scripted_new_inv l' (MAtom.sym0 n) arg hacc harg rfl _ (Or.inr rfl)
    | frac num den =>
      simp only [List.dropLast_concat, Option.some.injEq] at h
      subst h
      exact scripted_new_inv l' (MAtom.frac num den) arg hacc harg rfl _ (Or.inr rfl)
    | sqrt body =>
      simp only [List.dropLast_concat, Option.some.injEq] at h
      subst h
      exact scripted_new_inv l' (MAtom.sqrt body) arg hacc harg rfl _ (Or.inr rfl)
    | group body =>
      simp only [List.dropLast_concat, Option.some.injEq] at h
      subst h
      exact scripted_new_inv l' (MAtom.group body) arg hacc harg rfl _ (Or.inr rfl)
    | placeholder =>
      simp only [List.dropLast_concat, Option.some.injEq] at h
      subst h
      intro hnu
      rw [noUnknownL_concat] at hnu
      have hl' := band_left hnu
      have hwacc : wfL (l' ++ [MAtom.placeholder]) = true := by
        apply hacc
        rw [noUnknownL_concat]
        exact band_intro hl' rfl
      have hwx := wfL_last l' _ hwacc
      exact absurd hwx (by simp [wfA])
    | unknown n =>
      simp only [List.dropLast_concat, Option.some.injEq] at h
      subst h
      intro hnu
      rw [noUnknownL_concat] at hnu
      have hyA : (noUnknownA (MAtom.unknown n) && noUnknownOpt none &&
          noUnknownOpt (some arg)) = true := band_right hnu
      have hbU := band_left (band_left hyA)
      exact absurd hbU (by simp [noUnknownA])

theorem parse_wf (fuel : Nat) :
    (∀ acc toks ats rest b, toks.all wfTokChar = true →
      (noUnknownL acc = true → wfL acc = true) →
      parseSeqAux fuel acc toks = some (ats, rest, b) →
      noUnknownL ats = true → wfL ats = true) ∧
    (∀ toks ats rest, toks.all wfTokChar = true →
      parseArg fuel toks = ArgResult.ok ats rest →
      noUnknownL ats = true → wfL ats = true) := by
  induction fuel with
  | zero =>
    constructor
    · intro acc toks ats rest b _ _ h
      simp [parseSeqAux] at h
    · intro toks ats rest _ h
      simp [parseArg] at h
  | succ fuel ih =>
    obtain ⟨ihSeq, ihArg⟩ := ih
    constructor
    · intro acc toks ats rest b htoks hacc h hnu
      match toks with
      | [] =>
        simp only [parseSeqAux] at h
        cases h
        exact hacc hnu
      | Tok.egroup :: rest₀ =>
        simp only [parseSeqAux] at h
        cases h
        exact hacc hnu
      | Tok.bgroup :: rest₀ =>
        have hrest0 : rest₀.all wfTokChar = true := band_right htoks
        simp only [parseSeqAux] at h
        cases hin : parseSeqAux fuel [] rest₀ with
        | none => rw [hin] at h; exact absurd h (by simp)
        | some r =>
          obtain ⟨body, rest', b'⟩ := r
          rw [hin] at h
          simp only at h
          have hrest' : rest'.all wfTokChar = true :=
            all_wfTokChar_suffix _ _ ((parse_rest_suffix fuel).1 _ _ _ _ _ hin) hrest0
          have hbody : noUnknownL body = true → wfL body = true :=
            ihSeq [] rest₀ _ _ _ hrest0 (fun _ => rfl) hin
          have hinv' := accInv_snoc acc (MAtom.group body) hacc
            (fun hb => hbody hb) rfl
          exact ihSeq _ _ _ _ _ hrest' hinv' h hnu
      | Tok.sup :: rest₀ =>
        have hrest0 : rest₀.all wfTokChar = true := band_right htoks
        simp only [parseSeqAux] at h
        cases harg : parseArg fuel rest₀ with
        | hardFail => rw [harg] at h; exact absurd h (by simp)
        | noArg => rw [harg] at h; exact absurd h (by simp)
        | ok arg rest' =>
          rw [harg] at h
          simp only at h
          cases hat : attachSup acc arg with
          | none => rw [hat] at h; exact absurd h (by simp)
          | some acc' =>
            rw [hat] at h
            simp only at h
            have hrest' : rest'.all wfTokChar = true :=
              all_wfTokChar_suffix _ _ ((parse_rest_suffix fuel).2 _ _ _ harg).1 hrest0
            have hargInv : noUnknownL arg = true → wfL arg = true :=
              ihArg _ _ _ hrest0 harg
            have hinv' := attachSup_inv acc arg acc' hacc hargInv hat
            exact ihSeq _ _ _ _ _ hrest' hinv' h hnu
      | Tok.sub :: rest₀ =>
        have hrest0 : rest₀.all wfTokChar = true := band_right htoks
        simp only [parseSeqAux] at h
        cases harg : parseArg fuel rest₀ with
        | hardFail => rw [harg] at h; exact absurd h (by simp)
        | noArg => rw [harg] at h; exact absurd h (by simp)
        | ok arg rest' =>
          rw [harg] at h
          simp only at h
          cases hat : attachSub acc arg with
          | none => rw [hat] at h; exact absurd h (by simp)
          | some acc' =>
            rw [hat] at h
            simp only at h
            have hrest' : rest'.all wfTokChar = true :=
              all_wfTokChar_suffix _ _ ((parse_rest_suffix fuel).2 _ _ _ harg).1 hrest0
            have hargInv : noUnknownL arg = true → wfL arg = true :=
              ihArg _ _ _ hrest0 harg
            have hinv' := attachSub_inv acc arg acc' hacc hargInv hat
            exact ihSeq _ _ _ _ _ hrest' hinv' h hnu
      | Tok.align :: rest₀ =>
        have hrest0 : rest₀.all wfTokChar = true := band_right htoks
        simp only [parseSeqAux] at h
        have hinv' := accInv_snoc acc (MAtom.unknown alignName) hacc
          (fun hb => absurd hb (by simp [noUnknownA])) rfl
        exact ihSeq _ _ _ _ _ hrest0 hinv' h hnu
      | Tok.char c :: rest₀ =>
        have hrest0 : rest₀.all wfTokChar = true := band_right htoks
        simp only [parseSeqAux] at h
        have hinv' := accInv_snoc acc (MAtom.sym c) hacc
          (fun _ => band_left htoks) rfl
        exact ihSeq _ _ _ _ _ hrest0 hinv' h hnu
      | Tok.cs n :: rest₀ =>
        have hrest0 : rest₀.all wfTokChar = true := band_right htoks
        simp only [parseSeqAux] at h
        by_cases hf : n = fracName
        · rw [if_pos hf] at h
          cases harg : parseArg fuel rest₀ with
          | hardFail => rw [harg] at h; exact absurd h (by simp)
          | noArg =>
            rw [harg] at h
            have hinv' := accInv_snoc acc (MAtom.unknown n) hacc
              (fun hb => absurd hb (by simp [noUnknownA])) rfl
            exact ihSeq _ _ _ _ _ hrest0 hinv' h hnu
          | ok a1 r1 =>
            rw [harg] at h
            simp only at h
            have hr1 : r1.all wfTokChar = true :=
              all_wfTokChar_suffix _ _ ((parse_rest_suffix fuel).2 _ _ _ harg).1 hrest0
            cases harg2 : parseArg fuel r1 with
            | hardFail => rw [harg2] at h; exact absurd h (by simp)
            | noArg =>
              rw [harg2] at h
              have hinv' := accInv_snoc acc (MAtom.unknown n) hacc
                (fun hb => absurd hb (by simp [noUnknownA])) rfl
              exact ihSeq _ _ _ _ _ hrest0 hinv' h hnu
            | ok a2 r2 =>
              rw [harg2] at h
              simp only at h
              have hr2 : r2.all wfTokChar = true :=
                all_wfTokChar_suffix _ _ ((parse_rest_suffix fuel).2 _ _ _ harg2).1 hr1
              have ih1 := ihArg _ _ _ hrest0 harg
              have ih2 := ihArg _ _ _ hr1 harg2
              have hinv' := accInv_snoc acc (MAtom.frac a1 a2) hacc
                (fun hb => band_intro (ih1 (band_left hb)) (ih2 (band_right hb))) rfl
              exact ihSeq _ _ _ _ _ hr2 hinv' h hnu
        · rw [if_neg hf] at h
          by_cases hs : n = sqrtName
          · rw [if_pos hs] at h
            cases harg : parseArg fuel rest₀ with
            | hardFail => rw [harg] at h; exact absurd h (by simp)
            | noArg =>
              rw [harg] at h
              have hinv' := accInv_snoc acc (MAtom.unknown n) hacc
                (fun hb => absurd hb (by simp [noUnknownA])) rfl
              exact ihSeq _ _ _ _ _ hrest0 hinv' h hnu
            | ok a1 r1 =>
              rw [harg] at h
              simp only at h
              have hr1 : r1.all wfTokChar = true :=
                all_wfTokChar_suffix _ _ ((parse_rest_suffix fuel).2 _ _ _ harg).1 hrest0
              have ih1 := ihArg _ _ _ hrest0 harg
              have hinv' := accInv_snoc acc (MAtom.sqrt a1) hacc
                (fun hb => ih1 hb) rfl
              exact ihSeq _ _ _ _ _ hr1 hinv' h hnu
          · rw [if_neg hs] at h
            by_cases ht : symbolTable0.contains n
            · rw [if_pos ht] at h
              have hinv' := accInv_snoc acc (MAtom.sym0 n) hacc (fun _ => ht) rfl
              exact ihSeq _ _ _ _ _ hrest0 hinv' h hnu
            · rw [if_neg ht] at h
              have hinv' := accInv_snoc acc (MAtom.unknown n) hacc
                (fun hb => absurd hb (by simp [noUnknownA])) rfl
              exact ihSeq _ _ _ _ _ hrest0 hinv' h hnu
    · intro toks ats rest htoks h hnu
      match toks with
      | [] =>
        simp only [parseArg] at h
        exact ArgResult.noConfusion h
      | Tok.egroup :: rest₀ =>
        simp only [parseArg] at h
        exact ArgResult.noConfusion h
      | Tok.sup :: rest₀ =>
        simp only [parseArg] at h
        exact ArgResult.noConfusion h
      | Tok.sub :: rest₀ =>
        simp only [parseArg] at h
        exact ArgResult.noConfusion h
      | Tok.align :: rest₀ =>
        simp only [parseArg] at h
        cases h
        simp [noUnknownL, noUnknownA] at hnu
      | Tok.char c :: rest₀ =>
        simp only [parseArg] at h
        cases h
        exact band_intro (band_left htoks) rfl
      | Tok.bgroup :: rest₀ =>
        have hrest0 : rest₀.all wfTokChar = true := band_right htoks
        simp only [parseArg] at h
        cases hin : parseSeqAux fuel [] rest₀ with
        | none => rw [hin] at h; exact absurd h (by simp)
        | some r =>
          obtain ⟨body, rest', b'⟩ := r
          rw [hin] at h
          simp only at h
          cases h
          exact ihSeq [] rest₀ _ _ _ hrest0 (fun _ => rfl) hin hnu
      | Tok.cs n :: rest₀ =>
        have hrest0 : rest₀.all wfTokChar = true := band_right htoks
        simp only [parseArg] at h
        by_cases hf : n = fracName
        · rw [if_pos hf] at h
          cases harg : parseArg fuel rest₀ with
          | hardFail => rw [harg] at h; exact absurd h (by simp)
          | noArg =>
            rw [harg] at h
            cases h
            simp [noUnknownL, noUnknownA] at hnu
          | ok a1 r1 =>
            rw [harg] at h
            simp only at h
            have hr1 : r1.all wfTokChar = true :=
              all_wfTokChar_suffix _ _ ((parse_rest_suffix fuel).2 _ _ _ harg).1 hrest0
            cases harg2 : parseArg fuel r1 with
            | hardFail => rw [harg2] at h; exact absurd h (by simp)
            | noArg =>
              rw [harg2] at h
              cases h
              simp [noUnknownL, noUnknownA] at hnu
            | ok a2 r2 =>
              rw [harg2] at h
              cases h
              have ih1 := ihArg _ _ _ hrest0 harg
              have ih2 := ihArg _ _ _ hr1 harg2
              have hfa := band_left hnu
              exact band_intro (band_intro (ih1 (band_left hfa))
                (ih2 (band_right hfa))) rfl
        · rw [if_neg hf] at h
          by_cases hs : n = sqrtName
          · rw [if_pos hs] at h
            cases harg : parseArg fuel rest₀ with
            | hardFail => rw [harg] at h; exact absurd h (by simp)
            | noArg =>
              rw [harg] at h
              cases h
              simp [noUnknownL, noUnknownA] at hnu
            | ok a1 r1 =>
              rw [harg] at h
              cases h
              have ih1 := ihArg _ _ _ hrest0 harg
              exact band_intro (ih1 (band_left hnu)) rfl
          · rw [if_neg hs] at h
            by_cases ht : symbolTable0.contains n
            · rw [if_pos ht] at h
              cases h
              exact band_intro ht rfl
            · rw [if_neg ht] at h
              cases h
              simp [noUnknownL, noUnknownA] at hnu

theorem parseToks_wf (toks : List Tok) (ts : List MAtom)
    (htoks : toks.all wfTokChar = true) (h : parseToks toks = some ts)
    (hnu : noUnknownL ts = true) : wfL ts = true := by
  unfold parseToks at h
  cases hin : parseSeqAux (toks.length + 1) [] toks with
  | none => rw [hin] at h; exact absurd h (by simp)
  | some r =>
    obtain ⟨ats, rest, b⟩ := r
    rw [hin] at h
    cases rest with
    | cons t r' => exact absurd h (by simp)
    | nil =>
      cases b with
      | true => exact absurd h (by simp)
      | false =>
        simp only [Option.some.injEq] at h
        subst h
        exact (parse_wf (toks.length + 1)).1 [] toks ats [] false htoks
          (fun _ => rfl) hin hnu

theorem parse_noUnknown_wf (s : String) (ts : List MAtom)
    (h : parse s = some ts) (hnu : noUnknownL ts = true) : wfL ts = true :=
  parseToks_wf (tokenize s.data) ts (tokenize_wfTokChar s.data) h hnu

/-- C4: For every LaTeX input `s` that parses successfully and whose parse
contains no unknown-command atom (the input is accepted without
UnknownCommand), one parse/serialize round reaches a fixpoint: parsing the
serialized form gives back exactly the same atom forest, and hence
`serialize(parse(s)) = serialize(parse(serialize(parse(s))))` — setting the
string returned by `latex()` again returns the same string. -/
theorem parse_serialize_roundtrip_fixpoint (s : String) (ts : List MAtom)
    (hp : parse s = some ts) (hnu : noUnknownL ts = true) :
    parse (serializeL ts) = some ts ∧
    (parse (serializeL ts)).map serializeL = (parse s).map serializeL := by
  have hwf := parse_noUnknown_wf s ts hp hnu
  have hts : (serToksL ts).all wfTok = true := (serToks_wf (sizeOf ts)).2 ts le_rfl hwf
  have h1 : parse (serializeL ts) = some ts := by
    show parseToks (tokenize (String.mk (renderToks (serToksL ts))).data) = some ts
    rw [show (String.mk (renderToks (serToksL ts))).data =
      renderToks (serToksL ts) from rfl]
    rw [tokenize_renderToks _ hts]
    exact parseToks_serToksL ts hwf
  exact ⟨h1, by rw [h1, hp]⟩

/-- The parse of "x^2+1": x with a superscript 2, then +, then 1. -/
def roundTripSample : List MAtom :=
  [MAtom.scripted (MAtom.sym 'x') (some [MAtom.sym '2']) none,
   MAtom.sym '+', MAtom.sym '1']

theorem parse_serialize_roundtrip_fixpoint_witness :
    parse "x^2+1" = some roundTripSample ∧
    noUnknownL roundTripSample = true ∧
    parse (serializeL roundTripSample) = some roundTripSample :=
  ⟨rfl, rfl,
    (parse_serialize_roundtrip_fixpoint "x^2+1" roundTripSample rfl rfl).1⟩

/-- JavaScript truthiness of an optional string argument: `undefined` and the
empty string are falsy, any nonempty string is truthy. -/
def jsTruthyStr : Option String → Bool
  | none => false
  | some s => !s.isEmpty

/-- Modelled from the spec (§4.4, §6): `mathlist.insert(text, {insertionMode:
'replaceAll', format: 'latex'})` replaces the whole tree with the parse of the
text (the tree is kept when the text does not parse). -/
def insertReplaceAll (t : String) (tree : List MAtom) : List MAtom :=
  (parse t).getD tree

/-- The mathfield state seen by `MathField.latex`: the expression tree, the
current selection, the undo stack (spec §4.6) and a render counter. -/
structure MFLatexState where
  tree : List MAtom
  selection : Nat × Nat
  undoStack : List (List MAtom)
  renderCount : Nat

/-- Embedded from editor-mathfield.js lines 818-832 (`MathField.prototype.latex`):
if the argument is truthy, take an undo snapshot, insert it with replaceAll and
render; in every case return the serialized content.  `selIns` abstracts where
the insertion point lands after a replaceAll insert. -/
def latexMF (selIns : List MAtom → Nat × Nat) (text : Option String)
    (st : MFLatexState) : MFLatexState × String :=
  if jsTruthyStr text then
    let tree' := insertReplaceAll (text.getD "") st.tree
    let st' : MFLatexState :=
      { tree := tree', selection := selIns tree',
        undoStack := st.undoStack ++ [st.tree],
        renderCount := st.renderCount + 1 }
    (st', serializeL st'.tree)
  else (st, serializeL st.tree)

/-- C10: `MathField.latex` with the empty string (or an undefined argument —
any falsy value) is a pure getter: the state comes back with the same tree,
selection, undo stack and render count (no snapshot, no insertion, no render),
and the returned string is the current content serialized as LaTeX; the field
cannot be cleared this way. -/
theorem latex_falsy_pure_getter (selIns : List MAtom → Nat × Nat)
    (text : Option String) (st : MFLatexState)
    (h : jsTruthyStr text = false) :
    latexMF selIns text st = (st, serializeL st.tree) := by
  unfold latexMF
  rw [h]
  simp

theorem latex_falsy_pure_getter_witness :
    jsTruthyStr (some "") = false ∧
    latexMF (fun _ => (0, 0)) (some "")
        ⟨[MAtom.sym 'a'], (1, 2), [], 0⟩ =
      (⟨[MAtom.sym 'a'], (1, 2), [], 0⟩,
        serializeL [MAtom.sym 'a']) :=
  ⟨rfl, latex_falsy_pure_getter (fun _ => (0, 0)) (some "")
    ⟨[MAtom.sym 'a'], (1, 2), [], 0⟩ rfl⟩
